import Mathlib

/-!
# Verification of the BAZINGA repository against its specification

A shallow embedding of the parts of the BAZINGA repository that the spec's
testable claims are about:

* `src/core/bazinga/bazinga_universal.py` — `BazingaEncoder.encode_concept`
  and `BazingaDecoder.decode_sequence` (dot-joined numeric pattern strings,
  a hardcoded decoder-key table, special-cased mathematical constants and
  regex pattern matchers);
* `src/core/dodo/` — `DodoSystem.process_input` with its four
  `ProcessingState` branches, `HarmonicFramework`, `TimeTracker` and
  `TrustTracker`;
* `src/core/symbolic/symbol_processor.py` — `SymbolProcessor.validate_vac_sequence`;
* `bazinga_consciousness.py` — the `Thought` buffer updated by
  `_internal_monologue` and `converse`.

Python strings are modelled as `List Char`, Python floats as exact
fractions (`Flt`, an unreduced integer numerator/denominator pair with a
`Flt.val : Flt → Rat` bridge): float rounding is not modelled, so
arithmetic facts below are about the real-number reading of the code.
`math.log` is kept symbolic (a dedicated constructor holding its
arguments).  Fallible operations return `Except`/`Option`.
-/

namespace Bazinga

/-! ## Decimal rendering and parsing of Python ints

`str(n)` for a Python int renders the sign and decimal digits; `int(s)`
parses an optional sign followed by decimal digits.  (Python's `int` also
accepts surrounding whitespace, underscores between digits and non-ASCII
digits; those forms are never produced by this repository and are modelled
as parse failures.) -/
/-- The character for a decimal digit `d < 10`. -/
def digitChar (d : Nat) : Char := Char.ofNat (48 + d)

/-- Base-10 digits of `n`, least significant first, with fuel (so that the
definition reduces inside the kernel); `digitsRev n n` is exact. -/
def digitsRev : Nat → Nat → List Nat
  | 0, _ => []
  | fuel + 1, n => if n = 0 then [] else n % 10 :: digitsRev fuel (n / 10)

/-- Decimal rendering of a natural number, as `str` does for Python ints. -/
def natToChars (n : Nat) : List Char :=
  if n = 0 then ['0'] else ((digitsRev n n).map digitChar).reverse

/-- Decimal rendering of a Python int, with a leading `-` when negative. -/
def intToChars (z : Int) : List Char :=
  if z < 0 then '-' :: natToChars z.natAbs else natToChars z.toNat

/-- Is `c` an ASCII decimal digit? -/
def isDigitChar (c : Char) : Bool := 48 ≤ c.toNat && c.toNat ≤ 57

/-- The numeric value of an ASCII digit character. -/
def charDigit (c : Char) : Option Nat :=
  if isDigitChar c then some (c.toNat - 48) else none

/-- Digit values of a character list, most significant first; `none` if any
character is not an ASCII digit. -/
def charDigits : List Char → Option (List Nat)
  | [] => some []
  | c :: cs =>
    match charDigit c, charDigits cs with
    | some d, some ds => some (d :: ds)
    | _, _ => none

/-- Parse a nonempty all-digit character list as a natural number. -/
def parseNat (cs : List Char) : Option Nat :=
  match charDigits cs with
  | some [] => none
  | some ds => some (Nat.ofDigits 10 ds.reverse)
  | none => none

/-- `int(s)` on the forms this repository produces: an optional ASCII sign
followed by decimal digits. -/
def pyInt (cs : List Char) : Option Int :=
  match cs with
  | [] => none
  | c :: rest =>
    if c = '-' then (parseNat rest).map (fun n => -(n : Int))
    else if c = '+' then (parseNat rest).map (fun n => (n : Int))
    else (parseNat cs).map (fun n => (n : Int))

/-! ## Splitting on `.` and joining with `.`

`s.split('.')` in Python: every separator produces a cut, empty chunks are
kept, and the empty string splits to `[""]`. -/
/-- Python's `s.split('.')`. -/
def splitOnDot : List Char → List (List Char)
  | [] => [[]]
  | c :: cs =>
    if c = '.' then [] :: splitOnDot cs
    else
      match splitOnDot cs with
      | [] => [[c]]
      | t :: ts => (c :: t) :: ts

/-- `'.'.join`-style concatenation (the shape `f"{a}.{b}.{c}"` produces). -/
def joinDots : List (List Char) → List Char
  | [] => []
  | [t] => t
  | t :: t' :: ts => t ++ '.' :: joinDots (t' :: ts)

/-! ## Python float values

Python floats are modelled as exact rationals; to keep every operation
kernel-reducible (for concrete evaluation in witnesses) they are stored as
unreduced `num/den` fractions with `den > 0`, and all operations are plain
integer arithmetic.  `Flt.val` interprets a fraction in `ℚ` for
order-theoretic reasoning.  Float rounding is not modelled: facts about
these values are about the real-number reading of the code. -/
/-- A Python float value: an unreduced fraction.  Every value built below
has a positive denominator. -/
structure Flt where
  num : Int
  den : Int
deriving DecidableEq, Repr

namespace Flt

/-- The float of an int. -/
def ofInt (z : Int) : Flt := ⟨z, 1⟩

/-- Addition of fractions (no normalisation). -/
def add (a b : Flt) : Flt := ⟨a.num * b.den + b.num * a.den, a.den * b.den⟩

/-- Subtraction of fractions. -/
def sub (a b : Flt) : Flt := ⟨a.num * b.den - b.num * a.den, a.den * b.den⟩

/-- Multiplication of fractions. -/
def mul (a b : Flt) : Flt := ⟨a.num * b.num, a.den * b.den⟩

/-- Division of fractions; the sign is pushed into the numerator so the
denominator stays positive (callers guard against a zero divisor). -/
def div (a b : Flt) : Flt :=
  if 0 ≤ b.num then ⟨a.num * b.den, a.den * b.num⟩
  else ⟨-(a.num * b.den), -(a.den * b.num)⟩

/-- Division by a (positive) natural count, as used for averages. -/
def divNat (a : Flt) (n : Nat) : Flt := ⟨a.num, a.den * n⟩

/-- Absolute value. -/
def abs (a : Flt) : Flt := ⟨|a.num|, a.den⟩

/-- Value comparison `a ≤ b` (cross-multiplication; dens positive). -/
def le (a b : Flt) : Bool := a.num * b.den ≤ b.num * a.den

/-- Value comparison `a < b`. -/
def lt (a b : Flt) : Bool := a.num * b.den < b.num * a.den

/-- Value equality `a == b` (Python float equality). -/
def feq (a b : Flt) : Bool := a.num * b.den = b.num * a.den

/-- Python's `min` on floats. -/
def fmin (a b : Flt) : Flt := if lt b a then b else a

/-- Python's `max` on floats. -/
def fmax (a b : Flt) : Flt := if lt a b then b else a

/-- The rational value of the fraction. -/
def val (a : Flt) : Rat := (a.num : Rat) / (a.den : Rat)

end Flt

/-! ### `float(s)` on simple decimal forms

Used only by the decoder's constant matchers, always on dot-free tokens
here.  Python's `float` additionally accepts exponents, `inf`/`nan`,
underscores and surrounding whitespace; those forms never reach this code
and are modelled as parse failures. -/
/-- `float(s)` for `[sign] digits` and `[sign] digits '.' digits` forms. -/
def pyFloat (cs : List Char) : Option Flt :=
  let signed : Int × List Char :=
    match cs with
    | '-' :: r => (-1, r)
    | '+' :: r => (1, r)
    | _ => (1, cs)
  match splitOnDot signed.2 with
  | [ip] => (parseNat ip).map (fun n => ⟨signed.1 * n, 1⟩)
  | [ip, fp] =>
    if ip.isEmpty && fp.isEmpty then none
    else
      match charDigits ip, charDigits fp with
      | some di, some df =>
        some ⟨signed.1 * ((Nat.ofDigits 10 di.reverse : Int) * 10 ^ fp.length +
          (Nat.ofDigits 10 df.reverse : Int)), (10 : Int) ^ fp.length⟩
      | _, _ => none
  | _ => none

/-! ## The BAZINGA encoder (`bazinga_universal.py`, `BazingaEncoder`) -/
/-- One subsection entry of the decoder key (`{"name": ...}`). -/
structure SubEntry where
  name : List Char
deriving DecidableEq, Repr

/-- One section entry of the decoder key (`{"name": ..., "subsections": ...}`;
every entry of the default structure carries a `"name"`). -/
structure SectionEntry where
  name : List Char
  subsections : Option (List (List Char × SubEntry))
deriving DecidableEq, Repr

/-- `f"Subsection {k}"` -/
def subsectionFallback (k : List Char) : List Char :=
  "Subsection ".toList ++ k

/-- The hardcoded default decoder-key structure from `_load_decoder_key`. -/
def defaultDecoderKey : List (List Char × SectionEntry) :=
  [ ("1".toList, ⟨"Domain Analysis".toList, some
      [ ("1".toList, ⟨"Main BAZINGA Project".toList⟩),
        ("2".toList, ⟨"BAZINGA-INDEED Extended Project".toList⟩),
        ("3".toList, ⟨"Integration Context".toList⟩) ]⟩),
    ("2".toList, ⟨"Domain Name Analysis".toList, some
      [ ("1".toList, ⟨"Top Recommended Domain Names".toList⟩),
        ("2".toList, ⟨"Secondary Domain Options".toList⟩),
        ("3".toList, ⟨"Budget Considerations".toList⟩) ]⟩),
    ("3".toList, ⟨"DODO Visual Pattern Integration".toList, some
      [ ("1".toList, ⟨"Key Elements & Significance".toList⟩),
        ("2".toList, ⟨"Harmonic Framework".toList⟩),
        ("3".toList, ⟨"Transformation Pairs".toList⟩) ]⟩),
    ("4".toList, ⟨"Black Hole & Blockchain Parallels".toList, some
      [ ("1".toList, ⟨"Time & Trust Dimensions".toList⟩),
        ("2".toList, ⟨"Gravity & Consensus".toList⟩),
        ("3".toList, ⟨"Symmetry & Invariance".toList⟩) ]⟩),
    ("5".toList, ⟨"DODO System Framework".toList, some
      [ ("1".toList, ⟨"Fundamental Dimensions".toList⟩),
        ("2".toList, ⟨"System Models".toList⟩),
        ("3".toList, ⟨"Implementation Goals".toList⟩) ]⟩),
    ("6".toList, ⟨"Relationship Analysis Integration".toList, some
      [ ("1".toList, ⟨"Unified Data Components".toList⟩),
        ("2".toList, ⟨"Analysis Techniques".toList⟩),
        ("3".toList, ⟨"System Structure".toList⟩) ]⟩),
    ("7".toList, ⟨"Key Mathematical Constants".toList, some
      [ ("1".toList, ⟨"Golden Ratio".toList⟩),
        ("2".toList, ⟨"Time Harmonic".toList⟩),
        ("3".toList, ⟨"Base Frequency".toList⟩) ]⟩),
    ("8".toList, ⟨"Implementation Patterns".toList, some
      [ ("1".toList, ⟨"Integration Flow".toList⟩),
        ("2".toList, ⟨"Component Connections".toList⟩),
        ("3".toList, ⟨"Data Flow Patterns".toList⟩) ]⟩),
    ("9".toList, ⟨"Project Outcomes".toList, some
      [ ("1".toList, ⟨"System Functionality".toList⟩),
        ("2".toList, ⟨"Integration Results".toList⟩),
        ("3".toList, ⟨"Future Expansion".toList⟩) ]⟩) ]

/-- `_count_subsections`: subsection counts for sections that carry a
`"subsections"` table. -/
def countSubsections (key : List (List Char × SectionEntry)) :
    List (List Char × Nat) :=
  key.filterMap fun kv => kv.2.subsections.map fun subs => (kv.1, subs.length)

/-- Encoder state set up by `BazingaEncoder.__init__` (decoder key, derived
subsection counts, and the `constants` dictionary; `base_frequency` is a
Python int, the other two constants are floats). -/
structure Encoder where
  decoder_key : List (List Char × SectionEntry)
  section_counts : List (List Char × Nat)
  golden_ratio : Flt
  time_harmonic : Flt
  base_frequency : Int
deriving DecidableEq, Repr

/-- The encoder built with the default (hardcoded) decoder key. -/
def defaultEncoder : Encoder :=
  { decoder_key := defaultDecoderKey
    section_counts := countSubsections defaultDecoderKey
    golden_ratio := ⟨1618033988749895, 1000000000000000⟩
    time_harmonic := ⟨1333333, 1000000⟩
    base_frequency := 432 }

/-- Fractional decimal digits of `num/den` (`num < den`), with fuel; the
constants rendered in this repository all terminate well within the fuel. -/
def fracDigits (fuel : Nat) (num den : Nat) : List Char :=
  match fuel with
  | 0 => []
  | fuel + 1 =>
    if num = 0 then []
    else digitChar (num * 10 / den) :: fracDigits fuel (num * 10 % den) den

/-- `str(x)` for a Python float whose value has a finite decimal expansion
(the case for every float this repository formats). -/
def floatStr (q : Flt) : List Char :=
  let sign : List Char := if q.num < 0 then ['-'] else []
  let n := q.num.natAbs
  let d := q.den.toNat
  sign ++ natToChars (n / d) ++
    (if n % d = 0 then ".0".toList else '.' :: fracDigits 60 (n % d) d)

/-- Errors raised by the embedded code. -/
inductive PyErr where
  | valueError (msg : List Char)
  | keyError
deriving DecidableEq, Repr

instance {ε α : Type} [DecidableEq ε] [DecidableEq α] :
    DecidableEq (Except ε α) := fun x y =>
  match x, y with
  | .ok a, .ok b =>
    if h : a = b then isTrue (by rw [h]) else isFalse (by simp [h])
  | .error a, .error b =>
    if h : a = b then isTrue (by rw [h]) else isFalse (by simp [h])
  | .ok _, .error _ => isFalse (by simp)
  | .error _, .ok _ => isFalse (by simp)

/-- The general `f"{section}.{subsection}.{a1}.{a2}..."` build of
`encode_concept` (string concatenation over the attribute list). -/
def buildEncoding (sec sub : Int) (attributes : List Int) :
    List Char :=
  attributes.foldl (fun enc a => enc ++ '.' :: intToChars a)
    (intToChars sec ++ '.' :: intToChars sub)

/-- `BazingaEncoder.encode_concept`: validate the section/subsection against
the decoder key, special-case section 7's mathematical constants, and
otherwise join everything with dots.  Attributes are modelled as ints (the
repository's own calls pass small ints). -/
def encode_concept (e : Encoder) (sec sub : Int)
    (attributes : List Int) : Except PyErr (List Char) :=
  let section_str := intToChars sec
  let subsection_str := intToChars sub
  match List.lookup section_str e.decoder_key with
  | Option.none =>
    .error (.valueError ("Invalid section: ".toList ++ section_str))
  | some entry =>
    let subFail : Bool :=
      match entry.subsections with
      | some subs => (List.lookup subsection_str subs).isNone
      | Option.none => false
    if subFail then
      .error (.valueError ("Invalid subsection: ".toList ++ subsection_str ++
        " for section ".toList ++ section_str))
    else if sec = 7 then
      if sub = 1 then .ok ("7.1.".toList ++ floatStr e.golden_ratio)
      else if sub = 2 then
        .ok ("7.2.1.".toList ++ floatStr e.time_harmonic)
      else if sub = 3 then
        .ok ("7.3.".toList ++ intToChars e.base_frequency)
      else .ok (buildEncoding sec sub attributes)
    else .ok (buildEncoding sec sub attributes)

/-- `encode_concept` as a state-passing step: the method assigns to no
attribute of `self`, so the encoder after the call is the encoder before
it. -/
def encodeStep (e : Encoder) (sec sub : Int)
    (attributes : List Int) : Except PyErr (List Char) × Encoder :=
  (encode_concept e sec sub attributes, e)

/-- Is this `Except` an error? -/
def isError {α : Type} (x : Except PyErr α) : Bool :=
  match x with
  | .error _ => true
  | .ok _ => false

/-! ## Python values

A single value type for the dictionaries, lists and scalars the embedded
code passes around.  `bool` is kept separate from `int` only for printing;
Python's `bool` is an `int` subclass, so numeric extraction treats it as a
number.  `logDiv x n` stands for the transcendental `math.log(x) / n` (kept
symbolic). -/
mutual
/-- A Python value.  Lists and dicts are mutually inductive companions so
that recursions over values stay structural. -/
inductive DVal where
  | none
  | bool (b : Bool)
  | int (n : Int)
  | float (q : Flt)
  | str (s : List Char)
  | list (xs : DValList)
  | dict (kvs : DValDict)
  | logDiv (x : Flt) (n : Nat)
deriving DecidableEq

/-- A Python list of values. -/
inductive DValList where
  | nil
  | cons (hd : DVal) (tl : DValList)
deriving DecidableEq

/-- A Python dict with string keys, in insertion order. -/
inductive DValDict where
  | nil
  | cons (key : List Char) (val : DVal) (tl : DValDict)
deriving DecidableEq
end

/-- Build a `DValList` from a Lean list. -/
def DValList.ofList : List DVal → DValList
  | [] => .nil
  | x :: xs => .cons x (DValList.ofList xs)

/-- Build a `DValDict` from key/value pairs. -/
def DValDict.ofPairs : List (List Char × DVal) → DValDict
  | [] => .nil
  | (k, v) :: rest => .cons k v (DValDict.ofPairs rest)

/-- A Python list literal. -/
def DVal.mkList (xs : List DVal) : DVal := .list (DValList.ofList xs)

/-- A Python dict literal. -/
def DVal.mkDict (kvs : List (List Char × DVal)) : DVal :=
  .dict (DValDict.ofPairs kvs)

/-- Look a key up in a Python dict (first occurrence in insertion
order). -/
def dictGet (kvs : DValDict) (k : List Char) : Option DVal :=
  match kvs with
  | .nil => Option.none
  | .cons k' v rest => if k' = k then some v else dictGet rest k

/-- `d[k] = v` on a Python dict: replace in place if the key exists,
append otherwise. -/
def dictSet (kvs : DValDict) (k : List Char) (v : DVal) : DValDict :=
  match kvs with
  | .nil => .cons k v .nil
  | .cons k' v' rest =>
    if k' = k then .cons k' v rest else .cons k' v' (dictSet rest k v)

/-- `result[k]` on a value: `none` models the `KeyError`/`TypeError`
raised when the key is missing or the value is not a dict. -/
def pyGet (d : DVal) (k : List Char) : Option DVal :=
  match d with
  | .dict kvs => dictGet kvs k
  | _ => Option.none

/-! ## The BAZINGA decoder (`bazinga_universal.py`, `BazingaDecoder`)

The four pattern matchers are guarded by `re.match` (anchored prefix
match) with the patterns, in dict insertion order:
`8\.1\.\d+(\.\d+)+`, `7\.1\.\d+\.\d+`, `7\.2\.1\.\d+`, `7\.3\.\d+`.
Since a regex `\d+` consumes a maximal digit run and no backtracking can
move a digit across a literal `\.`, each of these has an exact
prefix-shape characterisation, implemented below. -/
/-- Strip a literal prefix, returning the rest. -/
def stripPre : List Char → List Char → Option (List Char)
  | [], s => some s
  | _ :: _, [] => Option.none
  | p :: ps, c :: cs => if c = p then stripPre ps cs else Option.none

/-- Consume a maximal nonempty digit run (regex `\d+`), returning the
rest; `none` if the first character is not a digit. -/
def digits1 (s : List Char) : Option (List Char) :=
  if (s.takeWhile isDigitChar).isEmpty then Option.none
  else some (s.dropWhile isDigitChar)

/-- Does the string start with a digit? -/
def headDigit (s : List Char) : Bool :=
  match s with
  | c :: _ => isDigitChar c
  | [] => false

/-- `re.match(r"8\.1\.\d+(\.\d+)+", s)`: after `8.1.` a full digit token,
then a dot and at least one more digit (prefix semantics). -/
def matchFibRe (s : List Char) : Bool :=
  match stripPre "8.1.".toList s with
  | some r1 =>
    match digits1 r1 with
    | some ('.' :: r2) => headDigit r2
    | _ => false
  | Option.none => false

/-- `re.match(r"7\.1\.\d+\.\d+", s)`. -/
def matchGoldenRe (s : List Char) : Bool :=
  match stripPre "7.1.".toList s with
  | some r1 =>
    match digits1 r1 with
    | some ('.' :: r2) => headDigit r2
    | _ => false
  | Option.none => false

/-- `re.match(r"7\.2\.1\.\d+", s)`. -/
def matchTimeHRe (s : List Char) : Bool :=
  match stripPre "7.2.1.".toList s with
  | some r1 => headDigit r1
  | Option.none => false

/-- `re.match(r"7\.3\.\d+", s)`. -/
def matchBaseFRe (s : List Char) : Bool :=
  match stripPre "7.3.".toList s with
  | some r1 => headDigit r1
  | Option.none => false

/-- `nums[i] == nums[i-1] + nums[i-2]` for every `i ≥ 2`. -/
def fibConsistent : List Int → Bool
  | a :: b :: c :: rest => c = a + b && fibConsistent (b :: c :: rest)
  | _ => true

/-- `_match_fibonacci`: re-split the sequence, `int()` every token after
the first two (an unparseable token raises — no try/except here), and
accept when the numbers are Fibonacci-consistent. -/
def matchFibonacci (s : List Char) : Except PyErr (Option DVal) :=
  let parts := splitOnDot s
  if parts.length < 4 then .ok Option.none
  else
    match (parts.drop 2).mapM pyInt with
    | Option.none => .error (.valueError "invalid literal for int".toList)
    | some nums =>
      if fibConsistent nums then
        .ok (some (DVal.mkDict
          [ ("type".toList, .str "fibonacci".toList),
            ("description".toList,
              .str "Fibonacci sequence for integration steps".toList),
            ("sequence".toList, DVal.mkList (nums.map DVal.int)) ]))
      else .ok Option.none

/-- `_match_golden_ratio`: `float(parts[2])` within `1e-4` of the golden
ratio constant (a failed parse is swallowed by `except: pass`). -/
def matchGoldenRatio (s : List Char) : Option DVal :=
  let parts := splitOnDot s
  if parts.length < 3 then Option.none
  else
    match pyFloat (parts.getD 2 []) with
    | Option.none => Option.none
    | some v =>
      if Flt.lt (Flt.abs (Flt.sub v ⟨1618033988749895, 1000000000000000⟩))
          ⟨1, 10000⟩ then
        some (DVal.mkDict
          [ ("type".toList, .str "mathematical_constant".toList),
            ("name".toList, .str "Golden Ratio".toList),
            ("value".toList, .float v),
            ("description".toList,
              .str "Used for visual harmonics and spatial arrangements".toList) ])
      else Option.none

/-- `_match_time_harmonic`: `float(parts[3])` within `1e-4` of the time
harmonic constant. -/
def matchTimeHarmonic (s : List Char) : Option DVal :=
  let parts := splitOnDot s
  if parts.length < 4 then Option.none
  else
    match pyFloat (parts.getD 3 []) with
    | Option.none => Option.none
    | some v =>
      if Flt.lt (Flt.abs (Flt.sub v ⟨1333333, 1000000⟩)) ⟨1, 10000⟩ then
        some (DVal.mkDict
          [ ("type".toList, .str "mathematical_constant".toList),
            ("name".toList, .str "Time Harmonic Ratio".toList),
            ("value".toList, .float v),
            ("description".toList, .str "Used for execution cycles".toList) ])
      else Option.none

/-- `_match_base_frequency`: `float(parts[2])` within `0.1` of 432. -/
def matchBaseFrequency (s : List Char) : Option DVal :=
  let parts := splitOnDot s
  if parts.length < 3 then Option.none
  else
    match pyFloat (parts.getD 2 []) with
    | Option.none => Option.none
    | some v =>
      if Flt.lt (Flt.abs (Flt.sub v ⟨432, 1⟩)) ⟨1, 10⟩ then
        some (DVal.mkDict
          [ ("type".toList, .str "mathematical_constant".toList),
            ("name".toList, .str "Base Frequency".toList),
            ("value".toList, .float v),
            ("description".toList,
              .str "Used for sound harmonics (Hz)".toList) ])
      else Option.none

/-- The typed coercion of one attribute token in the known-section branch:
`float` if the token contains a dot (unreachable after splitting on dots),
else `int`, falling back to the raw token on failure. -/
def typeAttr (a : List Char) : DVal :=
  if a.any (· = '.') then
    match pyFloat a with
    | some q => .float q
    | Option.none => .str a
  else
    match pyInt a with
    | some n => .int n
    | Option.none => .str a

/-- The (uncaught) coercion of one attribute token in the unknown-section
branch: `float(a) if '.' in a else int(a)` with no surrounding try. -/
def coerceAttr (a : List Char) : Option DVal :=
  if a.any (· = '.') then (pyFloat a).map DVal.float
  else (pyInt a).map DVal.int

/-- The standard (non-pattern) decoding path of `decode_sequence`
(`parts = sequence.split('.')`; `parts[0]`, `parts[1]` and `parts[2:]` are
written out as `getD`/`drop` over the split). -/
def decodeStandard (key : List (List Char × SectionEntry)) (s : List Char) :
    Except PyErr DVal :=
  if (splitOnDot s).length < 2 then
    .error (.valueError ("Invalid BAZINGA sequence: ".toList ++ s))
  else
    match List.lookup ((splitOnDot s).getD 0 []) key with
    | Option.none =>
      match pyInt ((splitOnDot s).getD 0 []) with
      | Option.none => .error (.valueError "invalid literal for int".toList)
      | some sec =>
        match pyInt ((splitOnDot s).getD 1 []) with
        | Option.none => .error (.valueError "invalid literal for int".toList)
        | some sub =>
          match ((splitOnDot s).drop 2).mapM coerceAttr with
          | Option.none =>
            .error (.valueError "invalid literal for int".toList)
          | some attrs =>
            .ok (DVal.mkDict
              [ ("section".toList, .int sec),
                ("subsection".toList, .int sub),
                ("attributes".toList, DVal.mkList attrs),
                ("note".toList, .str "Unknown section".toList) ])
    | some entry =>
      match pyInt ((splitOnDot s).getD 0 []) with
      | Option.none => .error (.valueError "invalid literal for int".toList)
      | some sec =>
        match pyInt ((splitOnDot s).getD 1 []) with
        | Option.none => .error (.valueError "invalid literal for int".toList)
        | some sub =>
          .ok (DVal.mkDict
            [ ("section".toList, .int sec),
              ("section_name".toList, .str entry.name),
              ("subsection".toList, .int sub),
              ("subsection_name".toList, .str
                (match entry.subsections with
                 | some subs =>
                   match List.lookup ((splitOnDot s).getD 1 []) subs with
                   | some se => se.name
                   | Option.none =>
                     subsectionFallback ((splitOnDot s).getD 1 [])
                 | Option.none =>
                   subsectionFallback ((splitOnDot s).getD 1 []))),
              ("attributes".toList,
                DVal.mkList (((splitOnDot s).drop 2).map typeAttr)),
              ("raw".toList, .str s) ])

/-- `BazingaDecoder.decode_sequence`: try the four pattern matchers in
registration order, each gated by its regex; fall through to the standard
decoding when a matcher declines. -/
def decode_sequence (key : List (List Char × SectionEntry)) (s : List Char) :
    Except PyErr DVal :=
  match (if matchFibRe s then matchFibonacci s else .ok Option.none) with
  | .error e => .error e
  | .ok (some r) => .ok r
  | .ok Option.none =>
    match (if matchGoldenRe s then matchGoldenRatio s else Option.none) with
    | some r => .ok r
    | Option.none =>
      match (if matchTimeHRe s then matchTimeHarmonic s else Option.none) with
      | some r => .ok r
      | Option.none =>
        match (if matchBaseFRe s then matchBaseFrequency s else Option.none) with
        | some r => .ok r
        | Option.none => decodeStandard key s

/-! ## The DODO system (`src/core/dodo/`) -/
/-- `ProcessingState` (`states.py`).  The enum has exactly these four
members; there is no `QUANTUM` member. -/
inductive ProcessingState where
  | TWO_D
  | PATTERN
  | TRANSITION
  | COMPLEX
deriving DecidableEq, Repr

/-- The enum member's `.value` string. -/
def ProcessingState.value : ProcessingState → List Char
  | .TWO_D => "2D".toList
  | .PATTERN => "PATTERN".toList
  | .TRANSITION => "TRANSITION".toList
  | .COMPLEX => "COMPLEX".toList

/-- The enum member's `.name` identifier. -/
def ProcessingState.nameStr : ProcessingState → List Char
  | .TWO_D => "TWO_D".toList
  | .PATTERN => "PATTERN".toList
  | .TRANSITION => "TRANSITION".toList
  | .COMPLEX => "COMPLEX".toList

/-- `TransformationPair` (`transformation.py`): a named pair of transforms
with the states it applies in.  (The constructor's fallback default list
references the nonexistent `ProcessingState.QUANTUM` and would raise; pairs
are modelled with their states given explicitly.) -/
structure TransformationPair where
  name : List Char
  forward : DVal → DVal
  reverse : DVal → DVal
  applicable_states : List ProcessingState

/-- `is_applicable`: membership of the current state (the data argument is
unused by the source). -/
def TransformationPair.is_applicable (p : TransformationPair) (_data : DVal)
    (state : ProcessingState) : Bool :=
  p.applicable_states.contains state

/-- `apply`: forward or reverse transform. -/
def TransformationPair.applyT (p : TransformationPair) (data : DVal)
    (reverse : Bool) : DVal :=
  if reverse then p.reverse data else p.forward data

/-- One recorded time point: the dict
`{"input": input_data, "state": self.state}`. -/
structure TimePoint where
  input : DVal
  state : ProcessingState

/-- `TimeTracker` (`time_trust.py`). -/
structure TimeTracker where
  time_points : List TimePoint
  current_time : Flt

/-- `add_time_point`: append and advance the clock by `1.0`. -/
def TimeTracker.add_time_point (t : TimeTracker) (p : TimePoint) :
    TimeTracker :=
  { time_points := t.time_points ++ [p]
    current_time := Flt.add t.current_time ⟨1, 1⟩ }

/-- `TrustTracker` (`time_trust.py`): starts at the neutral `0.5`. -/
structure TrustTracker where
  trust_level : Flt
  trust_history : List Flt

/-- Python truthiness of a value (`logDiv` models a positive float and
counts as truthy; it is only ever tested through `"success"`, which is a
bool here). -/
def truthy : DVal → Bool
  | .none => false
  | .bool b => b
  | .int n => n ≠ 0
  | .float q => q.num ≠ 0
  | .str s => !s.isEmpty
  | .list xs => match xs with | .nil => false | _ => true
  | .dict kvs => match kvs with | .nil => false | _ => true
  | .logDiv _ _ => true

/-- `update_trust_level`: read `result["success"]` (a missing key raises),
move the level a tenth up or down with the `min`/`max` clamp, and record
the new level in the history. -/
def TrustTracker.update_trust_level (t : TrustTracker) (result : DValDict) :
    Except PyErr (TrustTracker × Flt) :=
  match dictGet result "success".toList with
  | Option.none => .error .keyError
  | some v =>
    let lvl :=
      if truthy v then Flt.fmin ⟨1, 1⟩ (Flt.add t.trust_level ⟨1, 10⟩)
      else Flt.fmax ⟨0, 1⟩ (Flt.sub t.trust_level ⟨1, 10⟩)
    .ok ({ trust_level := lvl, trust_history := t.trust_history ++ [lvl] },
      lvl)

/-! ### Harmonics (`harmonics.py`) -/
/-- `HarmonicFramework` state: a mutable base frequency (initially `1.0`),
an unused cache and the golden-ratio constant. -/
structure HarmonicFramework where
  base_frequency : Flt
  harmonic_cache : DValDict
  phi : Flt

/-- `HarmonicFramework.__init__`. -/
def HarmonicFramework.init : HarmonicFramework :=
  { base_frequency := ⟨1, 1⟩
    harmonic_cache := .nil
    phi := ⟨1618033988749895, 1000000000000000⟩ }

mutual
/-- `_extract_numeric_values`: collect every int/float leaf (Python's
`bool` is an `int` subclass and counts), recursing into dict values and
list/tuple elements.  The symbolic `logDiv` has no representable value and
is skipped. -/
def extract_numeric : DVal → List Flt
  | .int n => [⟨n, 1⟩]
  | .float q => [q]
  | .bool b => [if b then ⟨1, 1⟩ else ⟨0, 1⟩]
  | .list xs => extract_numeric_list xs
  | .dict kvs => extract_numeric_dict kvs
  | _ => []

/-- Leaves of a list, in order. -/
def extract_numeric_list : DValList → List Flt
  | .nil => []
  | .cons x xs => extract_numeric x ++ extract_numeric_list xs

/-- Leaves of a dict's values, in insertion order. -/
def extract_numeric_dict : DValDict → List Flt
  | .nil => []
  | .cons _ v rest => extract_numeric v ++ extract_numeric_dict rest
end

/-- Sum of float values. -/
def sumF (vs : List Flt) : Flt := vs.foldl Flt.add ⟨0, 1⟩

/-- `sum(values) / len(values)`. -/
def meanF (vs : List Flt) : Flt := (sumF vs).divNat vs.length

/-- `_calculate_resonance`: `log(prod (1 + |v|)) / len`, with the log kept
symbolic; `0.0` on no values. -/
def resonanceVal (values : List Flt) : DVal :=
  if values.isEmpty then .float ⟨0, 1⟩
  else
    .logDiv (values.foldl (fun p v => Flt.mul p (Flt.add ⟨1, 1⟩ (Flt.abs v)))
      ⟨1, 1⟩) values.length

/-- The `1/(1+|(|b/a|) - phi|)` scores over consecutive pairs with a
nonzero first element (`_calculate_phi_ratio`'s loop). -/
def phiDistances (phi : Flt) : List Flt → List Flt
  | a :: b :: rest =>
    (if a.num = 0 then []
     else [Flt.div ⟨1, 1⟩
       (Flt.add ⟨1, 1⟩ (Flt.abs (Flt.sub (Flt.abs (Flt.div b a)) phi)))]) ++
      phiDistances phi (b :: rest)
  | _ => []

/-- `_calculate_phi_ratio`: mean of the pair scores, `0.5` when there are
no values or no scorable pairs. -/
def phiRatioVal (phi : Flt) (values : List Flt) : Flt :=
  if values.isEmpty then ⟨1, 2⟩
  else
    match phiDistances phi values with
    | [] => ⟨1, 2⟩
    | ds => Flt.divNat (sumF ds) ds.length

/-- `HarmonicFramework.calculate`: with no numeric values, return just the
current base frequency; otherwise set `base_frequency` to the mean of the
values (a state mutation) and return the harmonic table. -/
def HarmonicFramework.calculate (h : HarmonicFramework) (data : DVal) :
    HarmonicFramework × DValDict :=
  let values := extract_numeric data
  if values.isEmpty then
    (h, DValDict.ofPairs [("base".toList, .float h.base_frequency)])
  else
    let base := meanF values
    ({ h with base_frequency := base },
     DValDict.ofPairs
       [ ("base".toList, .float base),
         ("first".toList, .float (Flt.mul base ⟨2, 1⟩)),
         ("second".toList, .float (Flt.mul base ⟨3, 1⟩)),
         ("third".toList, .float (Flt.mul base ⟨4, 1⟩)),
         ("resonance".toList, resonanceVal values),
         ("phi_ratio".toList, .float (phiRatioVal h.phi values)) ])

/-! ### `DodoSystem` (`dodo_system.py`) -/
/-- The DODO system's mutable state. -/
structure DodoSystem where
  state : ProcessingState
  harmonics : HarmonicFramework
  time_tracker : TimeTracker
  trust_tracker : TrustTracker
  transformation_pairs : List TransformationPair
  data_cache : DValDict

/-- `DodoSystem.__init__`. -/
def DodoSystem.init : DodoSystem :=
  { state := .TWO_D
    harmonics := HarmonicFramework.init
    time_tracker := { time_points := [], current_time := ⟨0, 1⟩ }
    trust_tracker := { trust_level := ⟨1, 2⟩, trust_history := [] }
    transformation_pairs := []
    data_cache := .nil }

/-- `_process_2d`: start from
`{"success": True, "mode": "2D", "data": {}}`, add each applicable pair's
output under `result["data"]`, then attach the harmonics table (mutating
the framework's base frequency). -/
def DodoSystem.process_2d (s : DodoSystem) (data : DVal) :
    DodoSystem × DValDict :=
  let dataDict := s.transformation_pairs.foldl
    (fun acc p =>
      if p.is_applicable data s.state then
        dictSet acc p.name (p.applyT data false)
      else acc)
    DValDict.nil
  let hres := s.harmonics.calculate data
  ({ s with harmonics := hres.1 },
   DValDict.ofPairs
     [ ("success".toList, .bool true),
       ("mode".toList, .str "2D".toList),
       ("data".toList, .dict dataDict),
       ("harmonics".toList, .dict hres.2) ])

/-- The time-point recording at the top of `process_input`. -/
def DodoSystem.addTime (s : DodoSystem) (input_data : DVal) : DodoSystem :=
  { s with
    time_tracker := s.time_tracker.add_time_point ⟨input_data, s.state⟩ }

/-- The state dispatch of `process_input`: the `if/elif` chain on
`self.state` (the final `else` catches `COMPLEX` and returns mode
`"QUANTUM"`; the three non-`TWO_D` branches are literal dicts that make no
use of the input). -/
def DodoSystem.dispatch (s : DodoSystem) (input_data : DVal) :
    DodoSystem × DValDict :=
  match s.state with
  | .TWO_D => s.process_2d input_data
  | .PATTERN =>
    (s, DValDict.ofPairs
      [("success".toList, .bool true), ("mode".toList, .str "PATTERN".toList)])
  | .TRANSITION =>
    (s, DValDict.ofPairs
      [("success".toList, .bool true),
       ("mode".toList, .str "TRANSITION".toList)])
  | .COMPLEX =>
    (s, DValDict.ofPairs
      [("success".toList, .bool true), ("mode".toList, .str "QUANTUM".toList)])

/-- `process_input`: record a time point, dispatch on the current state,
then update trust from `result["success"]` and attach
`result["trust_level"]`. -/
def DodoSystem.process_input (s : DodoSystem) (input_data : DVal) :
    Except PyErr (DodoSystem × DValDict) :=
  let step := (s.addTime input_data).dispatch input_data
  match step.1.trust_tracker.update_trust_level step.2 with
  | .error e => .error e
  | .ok (tt, lvl) =>
    .ok ({ step.1 with trust_tracker := tt },
      dictSet step.2 "trust_level".toList (.float lvl))

/-- The system after one `process_input` call (the error fallback is
unreachable: every branch's result carries `"success"`). -/
def stepSystem (s : DodoSystem) (d : DVal) : DodoSystem :=
  match s.process_input d with
  | .ok p => p.1
  | .error _ => s

/-- The system after a sequence of `process_input` calls. -/
def runSystem (s : DodoSystem) (ds : List DVal) : DodoSystem :=
  ds.foldl stepSystem s

/-- The result dict of a `process_input` call. -/
def resultDict (x : Except PyErr (DodoSystem × DValDict)) : Option DValDict :=
  match x with
  | .ok p => some p.2
  | .error _ => Option.none

/-! ## The consciousness thought buffer (`bazinga_consciousness.py`)

`BazingaConsciousness` keeps `self.thoughts` with `self.max_thoughts = 100`.
`_internal_monologue` appends a `Thought` and then trims
(`self.thoughts = self.thoughts[-self.max_thoughts:]` when over the cap);
`converse` (step 7) appends an external `Thought` with no trim.  Only the
buffer discipline of these two append sites is modelled here. -/
/-- The `Thought` dataclass. -/
structure Thought where
  timestamp : List Char
  pattern : List Char
  resonance : Flt
  trust : Flt
  state : List Char
  source : List Char
deriving DecidableEq, Repr

/-- `self.max_thoughts` from `__init__`. -/
def max_thoughts : Nat := 100

/-- The thought-buffer effect of `_internal_monologue`: append, then keep
only the last `max_thoughts` when over the cap. -/
def monologueAppend (thoughts : List Thought) (t : Thought) : List Thought :=
  let ts := thoughts ++ [t]
  if max_thoughts < ts.length then ts.drop (ts.length - max_thoughts) else ts

/-- The thought-buffer effect of `converse` step 7: append, no trim. -/
def converseAppend (thoughts : List Thought) (t : Thought) : List Thought :=
  thoughts ++ [t]

/-- One append event: an internal-monologue thought or a converse
(external) thought. -/
inductive ThoughtStep where
  | internal (t : Thought)
  | external (t : Thought)
deriving DecidableEq, Repr

/-- Apply one append event to the buffer. -/
def applyStep (thoughts : List Thought) : ThoughtStep → List Thought
  | .internal t => monologueAppend thoughts t
  | .external t => converseAppend thoughts t

/-- The buffer after an interleaving of append events. -/
def runThoughts (steps : List ThoughtStep) (start : List Thought) :
    List Thought :=
  steps.foldl applyStep start

/-- Does the interleaving contain an internal-monologue append? -/
def hasInternal (steps : List ThoughtStep) : Bool :=
  steps.any fun s => match s with | .internal _ => true | .external _ => false

/-- The number of converse appends after the last internal-monologue
append (the whole list when no internal append occurs). -/
def trailingExternal : List ThoughtStep → Nat
  | [] => 0
  | .internal _ :: rest => trailingExternal rest
  | .external _ :: rest =>
    if hasInternal rest then trailingExternal rest else rest.length + 1

/-- A concrete thought for witnesses. -/
def someThought : Thought :=
  { timestamp := "t".toList
    pattern := "10101".toList
    resonance := ⟨0, 1⟩
    trust := ⟨1, 2⟩
    state := "TWO_D".toList
    source := "external".toList }

/-! ## The symbol processor (`src/core/symbolic/symbol_processor.py`)

`SymbolProcessor.vac_sequence` is the three-element list
`['०', '◌', 'Ω']`, and `validate_vac_sequence` walks `enumerate` over it,
comparing positionally against the input — a prefix check.  (The sibling
`symbolic_processor.py` has a different, four-symbol subsequence check;
its `_check_subsequence` is embedded below as well.) -/
/-- `self.vac_sequence = ['०', '◌', 'Ω']`, each symbol a one-character
string. -/
def vac_sequence : List (List Char) := [['०'], ['◌'], ['Ω']]

/-- The golden ratio float constant `self.phi`. -/
def phiConst : Flt := ⟨1618033988749895, 1000000000000000⟩

/-- `self.phi_states['phi_inverse'] = 1 / self.phi`. -/
def phiInverse : Flt := Flt.div ⟨1, 1⟩ phiConst

/-- The positional comparison loop of `validate_vac_sequence`: every
position of the expected list must exist in the input and match. -/
def vacMatches : List (List Char) → List (List Char) → Bool
  | [], _ => true
  | _ :: _, [] => false
  | e :: vs, s :: ss => e = s && vacMatches vs ss

/-- The partial-alignment count: positions `i` below both lengths with
`sequence[i] == vac_sequence[i]`. -/
def alignCount (vac seq : List (List Char)) : Nat :=
  (seq.zip vac).countP fun p => p.1 = p.2

/-- The result of `validate_vac_sequence` (the wall-clock timestamp field
is not modelled). -/
inductive VacResult where
  | emptyErr
  | result (valid : Bool) (sequence vac_pattern : List (List Char))
      (phi_resonance : Flt) (alignment : List Char)
deriving DecidableEq

/-- The `'valid'` field of the returned dict. -/
def VacResult.valid : VacResult → Bool
  | .emptyErr => false
  | .result v _ _ _ _ => v

/-- `SymbolProcessor.validate_vac_sequence`: empty input is rejected with
an error dict; otherwise the input is compared positionally against
`vac_sequence`, with full resonance `phi` on a match and a partial
alignment score otherwise. -/
def validate_vac_sequence (sequence : List (List Char)) : VacResult :=
  if sequence.isEmpty then .emptyErr
  else
    let matches_vac := vacMatches vac_sequence sequence
    let resonance :=
      if matches_vac then phiConst
      else
        Flt.mul
          (Flt.divNat (Flt.ofInt (alignCount vac_sequence sequence))
            vac_sequence.length)
          phiInverse
    .result matches_vac sequence vac_sequence resonance
      (if matches_vac then "full".toList else "partial".toList)

/-- `SymbolicProcessor._check_subsequence` (from the sibling
`symbolic_processor.py`, which is also part of this repository): the greedy
scan deciding whether `pattern` occurs as a subsequence of `seq`. -/
def check_subsequence (seq pattern : List (List Char)) : Bool :=
  (seq.foldl
    (fun pattern_idx c =>
      if pattern_idx < pattern.length && c = pattern.getD pattern_idx []
      then pattern_idx + 1 else pattern_idx)
    0) = pattern.length

/-! ## `process_input` characterisation -/
/-- The mode string each dispatch branch writes: the state's enum value for
the first three branches, and `"QUANTUM"` for `COMPLEX`. -/
def modeString : ProcessingState → List Char
  | .TWO_D => "2D".toList
  | .PATTERN => "PATTERN".toList
  | .TRANSITION => "TRANSITION".toList
  | .COMPLEX => "QUANTUM".toList

/-- The trust level after one `process_input` call:
`min(1.0, previous + 0.1)` (every branch reports success). -/
def newTrustLvl (s : DodoSystem) : Flt :=
  Flt.fmin ⟨1, 1⟩ (Flt.add s.trust_tracker.trust_level ⟨1, 10⟩)

/-- The trust invariant along a run: a positive denominator, and a value
between `0.5` and `1`. -/
def TrustInv (s : DodoSystem) : Prop :=
  0 < s.trust_tracker.trust_level.den ∧
    1 / 2 ≤ s.trust_tracker.trust_level.val ∧
    s.trust_tracker.trust_level.val ≤ 1

/-! ## Claim C10 -/
/-- Is the value an int or a raw string (the only attribute types the
decoder's standard path can produce)? -/
def intOrStr : DVal → Bool
  | .int _ => true
  | .str _ => true
  | _ => false

/-- `intOrStr` over a Python list. -/
def allIntOrStr : DValList → Bool
  | .nil => true
  | .cons x xs => intOrStr x && allIntOrStr xs

/-- The shapes that the Fibonacci matcher can capture: at least two
attributes, the first two rendered as pure digit runs (nonnegative), and
the whole list Fibonacci-consistent. -/
def fibCaptured (attrs : List Int) : Bool :=
  decide (2 ≤ attrs.length) && decide (0 ≤ attrs.getD 0 0) &&
    decide (0 ≤ attrs.getD 1 0) && fibConsistent attrs

/-! ## Theorems -/

theorem charDigit_digitChar (d : Nat) (h : d < 10) :
    charDigit (digitChar d) = some d := by
  interval_cases d <;> decide

theorem isDigitChar_digitChar (d : Nat) (h : d < 10) :
    isDigitChar (digitChar d) = true := by
  interval_cases d <;> decide

theorem digitChar_ne_dot (d : Nat) (h : d < 10) : digitChar d ≠ '.' := by
  interval_cases d <;> decide

theorem digitsRev_eq (fuel n : Nat) (h : n ≤ fuel) :
    digitsRev fuel n = Nat.digits 10 n := by
  induction fuel generalizing n with
  | zero => interval_cases n; simp [digitsRev]
  | succ f ih =>
    by_cases h0 : n = 0
    · simp [digitsRev, h0]
    · have hdiv : n / 10 < n := Nat.div_lt_self (Nat.pos_of_ne_zero h0) (by norm_num)
      rw [digitsRev, if_neg h0, ih (n / 10) (by omega),
        Nat.digits_def' (by norm_num : (1 : Nat) < 10) (Nat.pos_of_ne_zero h0)]

theorem natToChars_eq (n : Nat) :
    natToChars n =
      if n = 0 then ['0'] else ((Nat.digits 10 n).map digitChar).reverse := by
  unfold natToChars
  rw [digitsRev_eq n n le_rfl]

theorem charDigits_map_digitChar (ds : List Nat) (h : ∀ d ∈ ds, d < 10) :
    charDigits (ds.map digitChar) = some ds := by
  induction ds with
  | nil => rfl
  | cons d ds ih =>
    simp only [List.map_cons, charDigits]
    rw [charDigit_digitChar d (h d (by simp)), ih (fun x hx => h x (by simp [hx]))]

theorem parseNat_natToChars (n : Nat) : parseNat (natToChars n) = some n := by
  by_cases h0 : n = 0
  · subst h0; decide
  · have hlt : ∀ d ∈ (Nat.digits 10 n).reverse, d < 10 := by
      intro d hd
      exact Nat.digits_lt_base (by norm_num) (List.mem_reverse.mp hd)
    rw [natToChars_eq, if_neg h0, ← List.map_reverse, parseNat,
      charDigits_map_digitChar _ hlt]
    have hne : (Nat.digits 10 n).reverse ≠ [] := by
      simp [Nat.digits_ne_nil_iff_ne_zero, h0]
    match hrev : (Nat.digits 10 n).reverse, hne with
    | d :: ds, _ =>
      have : Nat.ofDigits 10 (d :: ds).reverse = n := by
        rw [← hrev, List.reverse_reverse, Nat.ofDigits_digits]
      simp only [this]

theorem natToChars_all_digit (n : Nat) :
    ∀ c ∈ natToChars n, isDigitChar c = true := by
  intro c hc
  rw [natToChars_eq] at hc
  by_cases h0 : n = 0
  · simp [h0] at hc; subst hc; decide
  · rw [if_neg h0, List.mem_reverse, List.mem_map] at hc
    obtain ⟨d, hd, rfl⟩ := hc
    exact isDigitChar_digitChar d (Nat.digits_lt_base (by norm_num) hd)

theorem natToChars_ne_nil (n : Nat) : natToChars n ≠ [] := by
  rw [natToChars_eq]
  by_cases h0 : n = 0
  · simp [h0]
  · rw [if_neg h0]
    simp [Nat.digits_ne_nil_iff_ne_zero, h0]

theorem ne_sign_of_digit {c : Char} (h : isDigitChar c = true) :
    c ≠ '-' ∧ c ≠ '+' ∧ c ≠ '.' := by
  refine ⟨?_, ?_, ?_⟩ <;> rintro rfl <;> simp [isDigitChar] at h

theorem pyInt_natToChars (n : Nat) : pyInt (natToChars n) = some (n : Int) := by
  match hcs : natToChars n, natToChars_ne_nil n with
  | c :: rest, _ =>
    have hdig : isDigitChar c = true := by
      have := natToChars_all_digit n c; rw [hcs] at this; exact this (by simp)
    obtain ⟨h1, h2, _⟩ := ne_sign_of_digit hdig
    have := parseNat_natToChars n
    rw [hcs] at this
    simp [pyInt, h1, h2, this]

theorem pyInt_intToChars (z : Int) : pyInt (intToChars z) = some z := by
  unfold intToChars
  by_cases hz : z < 0
  · rw [if_pos hz]
    have h1 : pyInt ('-' :: natToChars z.natAbs) =
        (parseNat (natToChars z.natAbs)).map (fun n => -(n : Int)) := by
      simp [pyInt]
    rw [h1, parseNat_natToChars]
    simp only [Option.map_eq_some', Option.bind_eq_bind, Option.some_bind,
      Option.some.injEq]
    exact ⟨z.natAbs, rfl, by omega⟩
  · rw [if_neg hz, pyInt_natToChars]
    congr 1
    omega

theorem intToChars_injective : Function.Injective intToChars := by
  intro a b h
  have := pyInt_intToChars a
  rw [h, pyInt_intToChars b] at this
  exact (Option.some_injective _ this).symm

theorem intToChars_no_dot (z : Int) : ∀ c ∈ intToChars z, c ≠ '.' := by
  intro c hc
  unfold intToChars at hc
  by_cases hz : z < 0
  · rw [if_pos hz] at hc
    rcases List.mem_cons.mp hc with rfl | hc
    · decide
    · exact (ne_sign_of_digit (natToChars_all_digit _ c hc)).2.2
  · rw [if_neg hz] at hc
    exact (ne_sign_of_digit (natToChars_all_digit _ c hc)).2.2

theorem intToChars_ne_nil (z : Int) : intToChars z ≠ [] := by
  unfold intToChars
  by_cases hz : z < 0
  · simp [hz]
  · rw [if_neg hz]; exact natToChars_ne_nil _

theorem splitOnDot_ne_nil (s : List Char) : splitOnDot s ≠ [] := by
  induction s with
  | nil => simp [splitOnDot]
  | cons c cs ih =>
    by_cases hc : c = '.'
    · simp [splitOnDot, hc]
    · simp only [splitOnDot, if_neg hc]
      match h : splitOnDot cs with
      | [] => simp
      | t :: ts => simp

theorem splitOnDot_no_dot (s : List Char) :
    ∀ t ∈ splitOnDot s, ∀ c ∈ t, c ≠ '.' := by
  induction s with
  | nil => intro t ht c hc; simp [splitOnDot] at ht; subst ht; simp at hc
  | cons a as ih =>
    intro t ht c hc
    by_cases ha : a = '.'
    · rw [splitOnDot, if_pos ha] at ht
      rcases List.mem_cons.mp ht with rfl | ht
      · simp at hc
      · exact ih t ht c hc
    · rw [splitOnDot, if_neg ha] at ht
      match h : splitOnDot as, splitOnDot_ne_nil as with
      | u :: us, _ =>
        rw [h] at ht
        rcases List.mem_cons.mp ht with rfl | ht
        · rcases List.mem_cons.mp hc with rfl | hc
          · exact ha
          · exact ih u (by rw [h]; simp) c hc
        · exact ih t (by rw [h]; exact List.mem_cons_of_mem _ ht) c hc

theorem splitOnDot_dot_cons (r : List Char) :
    splitOnDot ('.' :: r) = [] :: splitOnDot r := by
  simp [splitOnDot]

theorem splitOnDot_append_token (t : List Char) (hdf : ∀ c ∈ t, c ≠ '.')
    (r : List Char) :
    splitOnDot (t ++ '.' :: r) = t :: splitOnDot r := by
  induction t with
  | nil => simpa using splitOnDot_dot_cons r
  | cons a as ih =>
    have ha : a ≠ '.' := hdf a (by simp)
    have ih' := ih (fun c hc => hdf c (by simp [hc]))
    simp only [List.cons_append, splitOnDot, if_neg ha, List.append_eq, ih']

theorem splitOnDot_token (t : List Char) (hdf : ∀ c ∈ t, c ≠ '.') :
    splitOnDot t = [t] := by
  induction t with
  | nil => rfl
  | cons a as ih =>
    have ha : a ≠ '.' := hdf a (by simp)
    have ih' := ih (fun c hc => hdf c (by simp [hc]))
    simp only [splitOnDot, if_neg ha, ih']

theorem splitOnDot_joinDots (toks : List (List Char)) (hne : toks ≠ [])
    (hdf : ∀ t ∈ toks, ∀ c ∈ t, c ≠ '.') :
    splitOnDot (joinDots toks) = toks := by
  induction toks with
  | nil => exact absurd rfl hne
  | cons t ts ih =>
    match ts with
    | [] => exact splitOnDot_token t (hdf t (by simp))
    | u :: us =>
      rw [joinDots, splitOnDot_append_token t (hdf t (by simp))]
      rw [ih (by simp) (fun v hv c hc => hdf v (by simp [hv]) c hc)]

theorem joinDots_cons (t : List Char) (ts : List (List Char)) :
    joinDots (t :: ts) = t ++ ts.flatMap (fun u => '.' :: u) := by
  induction ts generalizing t with
  | nil => simp [joinDots]
  | cons u us ih => rw [joinDots, ih u]; simp

namespace Flt

theorem le_iff {a b : Flt} (ha : 0 < a.den) (hb : 0 < b.den) :
    le a b = true ↔ a.val ≤ b.val := by
  have ha' : (0 : Rat) < (a.den : Rat) := by exact_mod_cast ha
  have hb' : (0 : Rat) < (b.den : Rat) := by exact_mod_cast hb
  rw [le, val, val, div_le_div_iff ha' hb', decide_eq_true_eq]
  constructor
  · intro h
    calc (a.num : Rat) * (b.den : Rat) = ((a.num * b.den : Int) : Rat) := by
          push_cast; ring
    _ ≤ ((b.num * a.den : Int) : Rat) := by exact_mod_cast h
    _ = (b.num : Rat) * (a.den : Rat) := by push_cast; ring
  · intro h
    have : ((a.num * b.den : Int) : Rat) ≤ ((b.num * a.den : Int) : Rat) := by
      push_cast at h ⊢; linarith
    exact_mod_cast this

theorem lt_iff {a b : Flt} (ha : 0 < a.den) (hb : 0 < b.den) :
    lt a b = true ↔ a.val < b.val := by
  have ha' : (0 : Rat) < (a.den : Rat) := by exact_mod_cast ha
  have hb' : (0 : Rat) < (b.den : Rat) := by exact_mod_cast hb
  rw [lt, val, val, div_lt_div_iff ha' hb', decide_eq_true_eq]
  constructor
  · intro h
    have : ((a.num * b.den : Int) : Rat) < ((b.num * a.den : Int) : Rat) := by
      exact_mod_cast h
    push_cast at this ⊢; linarith
  · intro h
    have : ((a.num * b.den : Int) : Rat) < ((b.num * a.den : Int) : Rat) := by
      push_cast; linarith
    exact_mod_cast this

theorem val_add {a b : Flt} (ha : 0 < a.den) (hb : 0 < b.den) :
    (add a b).val = a.val + b.val := by
  have ha' : ((a.den : Rat)) ≠ 0 := by
    exact_mod_cast (Int.ne_of_gt ha)
  have hb' : ((b.den : Rat)) ≠ 0 := by
    exact_mod_cast (Int.ne_of_gt hb)
  simp only [add, val]
  push_cast
  field_simp

theorem val_sub {a b : Flt} (ha : 0 < a.den) (hb : 0 < b.den) :
    (sub a b).val = a.val - b.val := by
  have ha' : ((a.den : Rat)) ≠ 0 := by
    exact_mod_cast (Int.ne_of_gt ha)
  have hb' : ((b.den : Rat)) ≠ 0 := by
    exact_mod_cast (Int.ne_of_gt hb)
  simp only [sub, val]
  push_cast
  field_simp
  ring

theorem den_sub {a b : Flt} (ha : 0 < a.den) (hb : 0 < b.den) :
    0 < (sub a b).den := by
  simp only [sub]
  positivity

theorem val_ofInt (z : Int) : (ofInt z).val = (z : Rat) := by
  simp [ofInt, val]

theorem val_fmin {a b : Flt} (ha : 0 < a.den) (hb : 0 < b.den) :
    (fmin a b).val = min a.val b.val := by
  rw [fmin]
  by_cases h : lt b a = true
  · rw [if_pos h, min_comm]
    rw [lt_iff hb ha] at h
    rw [min_eq_left (le_of_lt h)]
  · rw [if_neg h]
    have : ¬ b.val < a.val := by rw [← lt_iff hb ha]; simpa using h
    rw [min_eq_left (not_lt.mp this)]

theorem val_fmax {a b : Flt} (ha : 0 < a.den) (hb : 0 < b.den) :
    (fmax a b).val = max a.val b.val := by
  rw [fmax]
  by_cases h : lt a b = true
  · rw [if_pos h]
    rw [lt_iff ha hb] at h
    rw [max_eq_right (le_of_lt h)]
  · rw [if_neg h]
    have : ¬ a.val < b.val := by rw [← lt_iff ha hb]; simpa using h
    rw [max_eq_left (not_lt.mp this)]

theorem den_add {a b : Flt} (ha : 0 < a.den) (hb : 0 < b.den) :
    0 < (add a b).den := by
  simp only [add]
  positivity

theorem den_fmin {a b : Flt} (ha : 0 < a.den) (hb : 0 < b.den) :
    0 < (fmin a b).den := by
  rw [fmin]; split <;> assumption

theorem den_fmax {a b : Flt} (ha : 0 < a.den) (hb : 0 < b.den) :
    0 < (fmax a b).den := by
  rw [fmax]; split <;> assumption

end Flt

/-! ## Dict lemmas -/
theorem dictGet_cons (k0 : List Char) (v0 : DVal) (rest : DValDict)
    (k : List Char) :
    dictGet (.cons k0 v0 rest) k = if k0 = k then some v0 else dictGet rest k :=
  rfl

theorem dictGet_set_eq : ∀ (kvs : DValDict) (k : List Char) (v : DVal),
    dictGet (dictSet kvs k v) k = some v
  | .nil, k, v => by simp [dictSet, dictGet]
  | .cons k0 v0 rest, k, v => by
    by_cases h : k0 = k
    · simp [dictSet, dictGet, h]
    · simp [dictSet, dictGet, h, dictGet_set_eq rest k v]

theorem dictGet_set_ne : ∀ (kvs : DValDict) (k : List Char) (v : DVal)
    (k' : List Char), k ≠ k' → dictGet (dictSet kvs k v) k' = dictGet kvs k'
  | .nil, k, v, k', h => by
    simp [dictSet, dictGet, h]
  | .cons k0 v0 rest, k, v, k', h => by
    by_cases h0 : k0 = k
    · subst h0
      simp [dictSet, dictGet, h]
    · simp [dictSet, dictGet, h0, dictGet_set_ne rest k v k' h]

theorem dispatch_trust (s : DodoSystem) (d : DVal) :
    (s.dispatch d).1.trust_tracker = s.trust_tracker := by
  cases hs : s.state <;>
    simp [DodoSystem.dispatch, hs, DodoSystem.process_2d]

theorem dispatch_state (s : DodoSystem) (d : DVal) :
    (s.dispatch d).1.state = s.state := by
  cases hs : s.state <;>
    simp [DodoSystem.dispatch, hs, DodoSystem.process_2d]

theorem dispatch_success (s : DodoSystem) (d : DVal) :
    dictGet (s.dispatch d).2 "success".toList = some (.bool true) := by
  cases hs : s.state <;>
    simp [DodoSystem.dispatch, hs, DodoSystem.process_2d, DValDict.ofPairs,
      dictGet]

theorem dispatch_mode (s : DodoSystem) (d : DVal) :
    dictGet (s.dispatch d).2 "mode".toList = some (.str (modeString s.state)) := by
  cases hs : s.state <;>
    simp only [DodoSystem.dispatch, hs, DodoSystem.process_2d, modeString,
      DValDict.ofPairs] <;>
    rw [dictGet_cons, if_neg (by decide), dictGet_cons, if_pos (by decide)]

theorem update_trust_success (t : TrustTracker) (r : DValDict)
    (h : dictGet r "success".toList = some (.bool true)) :
    t.update_trust_level r = .ok
      ({ trust_level := Flt.fmin ⟨1, 1⟩ (Flt.add t.trust_level ⟨1, 10⟩),
         trust_history := t.trust_history ++
           [Flt.fmin ⟨1, 1⟩ (Flt.add t.trust_level ⟨1, 10⟩)] },
       Flt.fmin ⟨1, 1⟩ (Flt.add t.trust_level ⟨1, 10⟩)) := by
  unfold TrustTracker.update_trust_level
  rw [h]
  rfl

theorem process_input_eq (s : DodoSystem) (d : DVal) :
    s.process_input d = .ok
      ({ ((s.addTime d).dispatch d).1 with trust_tracker :=
          { trust_level := newTrustLvl s,
            trust_history := s.trust_tracker.trust_history ++ [newTrustLvl s] } },
        dictSet ((s.addTime d).dispatch d).2 "trust_level".toList
          (.float (newTrustLvl s))) := by
  have hsucc := dispatch_success (s.addTime d) d
  have htr : ((s.addTime d).dispatch d).1.trust_tracker = s.trust_tracker := by
    rw [dispatch_trust]
    rfl
  simp only [DodoSystem.process_input]
  rw [htr, update_trust_success _ _ hsucc]
  rfl

/-! ## Claim C2 -/
/-- C2 (counterexample): with the system in state `COMPLEX`, processing the
empty dict yields a result whose `"mode"` is `"QUANTUM"`, which is neither
the state's value `"COMPLEX"` nor its name `"COMPLEX"` — refuting the claim
that the mode always matches the current state's name/value. -/
theorem c2_mode_complex_counterexample :
    (match resultDict
        (DodoSystem.process_input { DodoSystem.init with state := .COMPLEX }
          (.dict .nil)) with
      | some r => dictGet r "mode".toList
      | Option.none => Option.none) = some (.str "QUANTUM".toList) ∧
    "QUANTUM".toList ≠ ProcessingState.value .COMPLEX ∧
    "QUANTUM".toList ≠ ProcessingState.nameStr .COMPLEX := by
  refine ⟨?_, by decide, by decide⟩
  rfl

/-- C2 (amended): for every system state and every input dict,
`process_input` returns a dict containing `"success"` (set to `True`) and
`"mode"`; the mode equals the state's enum value for `TWO_D`, `PATTERN` and
`TRANSITION`, and is the string `"QUANTUM"` when the state is `COMPLEX`. -/
theorem c2_process_input_mode (s : DodoSystem) (d : DVal) :
    ∃ s' r, s.process_input d = .ok (s', r) ∧
      dictGet r "success".toList = some (.bool true) ∧
      dictGet r "mode".toList = some (.str (modeString s.state)) := by
  refine ⟨_, _, process_input_eq s d, ?_, ?_⟩
  · rw [dictGet_set_ne _ _ _ _ (by decide)]
    exact dispatch_success _ _
  · rw [dictGet_set_ne _ _ _ _ (by decide)]
    exact dispatch_mode _ _

/-! ## Claim C7 -/
/-- C7: when the current state is not `TWO_D`, the result of
`process_input` does not depend on the input dictionary — the `PATTERN`,
`TRANSITION` and `COMPLEX` branches return the same literal dict for every
input (the trust update then only depends on the prior tracker state). -/
theorem c7_non_twod_input_independent (s : DodoSystem) (d₁ d₂ : DVal)
    (h : s.state ≠ .TWO_D) :
    resultDict (s.process_input d₁) = resultDict (s.process_input d₂) := by
  rw [process_input_eq, process_input_eq]
  simp only [resultDict]
  have hd : ((s.addTime d₁).dispatch d₁).2 = ((s.addTime d₂).dispatch d₂).2 := by
    cases hs : s.state with
    | TWO_D => exact absurd hs h
    | PATTERN => simp [DodoSystem.dispatch, DodoSystem.addTime, hs]
    | TRANSITION => simp [DodoSystem.dispatch, DodoSystem.addTime, hs]
    | COMPLEX => simp [DodoSystem.dispatch, DodoSystem.addTime, hs]
  rw [hd]

/-- C7 (witness): a `PATTERN`-state system gives the same result for the
empty dict and for `\x7b"x": 3\x7d`. -/
theorem c7_witness :
    ({ DodoSystem.init with state := .PATTERN } : DodoSystem).state ≠ .TWO_D ∧
    resultDict
        (DodoSystem.process_input { DodoSystem.init with state := .PATTERN }
          (.dict .nil)) =
      resultDict
        (DodoSystem.process_input { DodoSystem.init with state := .PATTERN }
          (.dict (.cons "x".toList (.int 3) .nil))) :=
  ⟨by decide, c7_non_twod_input_independent _ _ _ (by decide)⟩

/-! ## Claim C9 -/
theorem stepSystem_eq (s : DodoSystem) (d : DVal) :
    stepSystem s d =
      { ((s.addTime d).dispatch d).1 with trust_tracker :=
          { trust_level := newTrustLvl s,
            trust_history :=
              s.trust_tracker.trust_history ++ [newTrustLvl s] } } := by
  unfold stepSystem
  rw [process_input_eq]

theorem stepSystem_trust (s : DodoSystem) (d : DVal) :
    (stepSystem s d).trust_tracker.trust_level = newTrustLvl s := by
  rw [stepSystem_eq]

theorem flt_one_val : (⟨1, 1⟩ : Flt).val = 1 := by norm_num [Flt.val]

theorem flt_zero_val : (⟨0, 1⟩ : Flt).val = 0 := by norm_num [Flt.val]

theorem flt_half_val : (⟨1, 2⟩ : Flt).val = 1 / 2 := by norm_num [Flt.val]

theorem flt_tenth_val : (⟨1, 10⟩ : Flt).val = 1 / 10 := by norm_num [Flt.val]

theorem newTrustLvl_den (s : DodoSystem)
    (h : 0 < s.trust_tracker.trust_level.den) : 0 < (newTrustLvl s).den :=
  Flt.den_fmin (by decide) (Flt.den_add h (by decide))

theorem newTrustLvl_val (s : DodoSystem)
    (h : 0 < s.trust_tracker.trust_level.den) :
    (newTrustLvl s).val = min 1 (s.trust_tracker.trust_level.val + 1 / 10) := by
  unfold newTrustLvl
  rw [Flt.val_fmin (by decide) (Flt.den_add h (by decide)),
    Flt.val_add h (by decide), flt_one_val, flt_tenth_val]

theorem trustInv_step (s : DodoSystem) (d : DVal) (h : TrustInv s) :
    TrustInv (stepSystem s d) := by
  obtain ⟨hden, hlo, hhi⟩ := h
  refine ⟨?_, ?_, ?_⟩ <;> rw [stepSystem_trust]
  · exact newTrustLvl_den s hden
  · rw [newTrustLvl_val s hden]
    exact le_min (by norm_num) (by linarith)
  · rw [newTrustLvl_val s hden]
    exact min_le_left _ _

theorem trustInv_run : ∀ (ds : List DVal) (s : DodoSystem), TrustInv s →
    TrustInv (runSystem s ds)
  | [], _, h => h
  | d :: ds, s, h => trustInv_run ds (stepSystem s d) (trustInv_step s d h)

theorem trustInv_init : TrustInv DodoSystem.init := by
  refine ⟨by decide, ?_, ?_⟩ <;> norm_num [DodoSystem.init, Flt.val]

/-- C9: every branch of `process_input` reports success, so (a) no call
raises, (b) the trust level after a call is exactly
`min(1.0, previous + 0.1)`, (c) a call never decreases a trust level that
is at most `1`, (d) starting from the initial `0.5`, the trust level stays
in `[0.5, 1]` across any sequence of calls, and (e) the generic
`min`/`max` clamp of `update_trust_level` keeps any trust level inside
`[0, 1]` — with float arithmetic read as exact rationals. -/
theorem c9_trust_level_invariants :
    (∀ (s : DodoSystem) (d : DVal), ∃ s' r, s.process_input d = .ok (s', r)) ∧
    (∀ (s : DodoSystem) (d : DVal),
      (stepSystem s d).trust_tracker.trust_level =
        Flt.fmin ⟨1, 1⟩ (Flt.add s.trust_tracker.trust_level ⟨1, 10⟩)) ∧
    (∀ (s : DodoSystem) (d : DVal),
      0 < s.trust_tracker.trust_level.den →
      Flt.le s.trust_tracker.trust_level ⟨1, 1⟩ = true →
      Flt.le s.trust_tracker.trust_level
        (stepSystem s d).trust_tracker.trust_level = true) ∧
    (∀ ds : List DVal,
      Flt.le ⟨1, 2⟩ (runSystem DodoSystem.init ds).trust_tracker.trust_level
          = true ∧
      Flt.le (runSystem DodoSystem.init ds).trust_tracker.trust_level ⟨1, 1⟩
          = true) ∧
    (∀ (t : TrustTracker) (r : DValDict) (t' : TrustTracker) (lvl : Flt),
      t.update_trust_level r = .ok (t', lvl) →
      0 < t.trust_level.den →
      Flt.le ⟨0, 1⟩ t.trust_level = true →
      Flt.le t.trust_level ⟨1, 1⟩ = true →
      Flt.le ⟨0, 1⟩ t'.trust_level = true ∧
        Flt.le t'.trust_level ⟨1, 1⟩ = true) := by
  refine ⟨?_, ?_, ?_, ?_, ?_⟩
  · intro s d
    exact ⟨_, _, process_input_eq s d⟩
  · intro s d
    rw [stepSystem_trust]
    rfl
  · intro s d hden hle
    rw [Flt.le_iff hden (by decide)] at hle
    rw [flt_one_val] at hle
    rw [Flt.le_iff hden (by rw [stepSystem_trust]; exact newTrustLvl_den s hden),
      stepSystem_trust, newTrustLvl_val s hden]
    exact le_min hle (by linarith)
  · intro ds
    obtain ⟨hden, hlo, hhi⟩ := trustInv_run ds DodoSystem.init trustInv_init
    constructor
    · rw [Flt.le_iff (by decide) hden, flt_half_val]
      exact hlo
    · rw [Flt.le_iff hden (by decide), flt_one_val]
      exact hhi
  · intro t r t' lvl h hden h0 h1
    rw [Flt.le_iff (by decide) hden, flt_zero_val] at h0
    rw [Flt.le_iff hden (by decide), flt_one_val] at h1
    unfold TrustTracker.update_trust_level at h
    match hget : dictGet r "success".toList with
    | Option.none => rw [hget] at h; exact absurd h (by simp)
    | some v =>
      rw [hget] at h
      simp only [Except.ok.injEq, Prod.mk.injEq] at h
      obtain ⟨ht', -⟩ := h
      by_cases htv : truthy v = true
      · rw [if_pos htv] at ht'
        have hd : 0 < (Flt.fmin ⟨1, 1⟩ (Flt.add t.trust_level ⟨1, 10⟩)).den :=
          Flt.den_fmin (by decide) (Flt.den_add hden (by decide))
        have hv : (Flt.fmin ⟨1, 1⟩ (Flt.add t.trust_level ⟨1, 10⟩)).val =
            min 1 (t.trust_level.val + 1 / 10) := by
          rw [Flt.val_fmin (by decide) (Flt.den_add hden (by decide)),
            Flt.val_add hden (by decide), flt_one_val, flt_tenth_val]
        constructor
        · rw [← ht', Flt.le_iff (by decide) hd, flt_zero_val, hv]
          exact le_min (by norm_num) (by linarith)
        · rw [← ht', Flt.le_iff hd (by decide), flt_one_val, hv]
          exact min_le_left _ _
      · rw [if_neg htv] at ht'
        have hd : 0 < (Flt.fmax ⟨0, 1⟩ (Flt.sub t.trust_level ⟨1, 10⟩)).den :=
          Flt.den_fmax (by decide) (Flt.den_sub hden (by decide))
        have hv : (Flt.fmax ⟨0, 1⟩ (Flt.sub t.trust_level ⟨1, 10⟩)).val =
            max 0 (t.trust_level.val - 1 / 10) := by
          rw [Flt.val_fmax (by decide) (Flt.den_sub hden (by decide)),
            Flt.val_sub hden (by decide), flt_zero_val, flt_tenth_val]
        constructor
        · rw [← ht', Flt.le_iff (by decide) hd, flt_zero_val, hv]
          exact le_max_left _ _
        · rw [← ht', Flt.le_iff hd (by decide), flt_one_val, hv]
          exact max_le (by norm_num) (by linarith)

/-- C9 (witness): the invariants at the initial system, one concrete
input, and one concrete failing update. -/
theorem c9_witness :
    (0 < DodoSystem.init.trust_tracker.trust_level.den ∧
      Flt.le DodoSystem.init.trust_tracker.trust_level ⟨1, 1⟩ = true ∧
      Flt.le DodoSystem.init.trust_tracker.trust_level
        (stepSystem DodoSystem.init (.dict .nil)).trust_tracker.trust_level
        = true) ∧
    (Flt.le ⟨1, 2⟩
        (runSystem DodoSystem.init [.dict .nil]).trust_tracker.trust_level
        = true) ∧
    (Flt.le ⟨0, 1⟩
        (({ trust_level := ⟨1, 2⟩, trust_history := [] } :
          TrustTracker).update_trust_level
            (.cons "success".toList (.bool false) .nil) |>.map
          (fun p => p.1.trust_level) |>.toOption |>.getD ⟨0, 1⟩) = true) := by
  refine ⟨⟨by decide, by decide, ?_⟩, ?_, ?_⟩
  · exact c9_trust_level_invariants.2.2.1 DodoSystem.init (.dict .nil)
      (by decide) (by decide)
  · exact (c9_trust_level_invariants.2.2.2.1 [.dict .nil]).1
  · exact (c9_trust_level_invariants.2.2.2.2
      { trust_level := ⟨1, 2⟩, trust_history := [] }
      (.cons "success".toList (.bool false) .nil)
      { trust_level := Flt.fmax ⟨0, 1⟩ (Flt.sub ⟨1, 2⟩ ⟨1, 10⟩),
        trust_history := [Flt.fmax ⟨0, 1⟩ (Flt.sub ⟨1, 2⟩ ⟨1, 10⟩)] }
      (Flt.fmax ⟨0, 1⟩ (Flt.sub ⟨1, 2⟩ ⟨1, 10⟩))
      rfl (by decide) (by decide) (by decide)).1

/-! ## Claim C8 -/
theorem dispatch_twod (s : DodoSystem) (d : DVal) (h : s.state = .TWO_D) :
    s.dispatch d = s.process_2d d := by
  unfold DodoSystem.dispatch
  rw [h]

theorem val_divNat {a : Flt} (ha : 0 < a.den) (n : Nat) (hn : 0 < n) :
    (a.divNat n).val = a.val / n := by
  have ha' : ((a.den : Rat)) ≠ 0 := by
    exact_mod_cast (Int.ne_of_gt ha)
  have hn' : ((n : Rat)) ≠ 0 := by
    exact_mod_cast hn.ne'
  simp only [Flt.divNat, Flt.val]
  push_cast
  field_simp

theorem foldl_add_den : ∀ (vs : List Flt) (acc : Flt), 0 < acc.den →
    (∀ v ∈ vs, 0 < v.den) → 0 < (vs.foldl Flt.add acc).den
  | [], acc, hacc, _ => hacc
  | v :: vs, acc, hacc, hvs =>
    foldl_add_den vs (Flt.add acc v)
      (Flt.den_add hacc (hvs v (by simp)))
      (fun u hu => hvs u (by simp [hu]))

theorem foldl_add_val : ∀ (vs : List Flt) (acc : Flt), 0 < acc.den →
    (∀ v ∈ vs, 0 < v.den) →
    (vs.foldl Flt.add acc).val = acc.val + (vs.map Flt.val).sum
  | [], acc, _, _ => by simp
  | v :: vs, acc, hacc, hvs => by
    have hv : 0 < v.den := hvs v (by simp)
    rw [List.foldl_cons,
      foldl_add_val vs (Flt.add acc v) (Flt.den_add hacc hv)
        (fun u hu => hvs u (by simp [hu])),
      Flt.val_add hacc hv]
    simp [add_assoc]

theorem meanF_val (vs : List Flt) (hne : vs ≠ [])
    (hd : ∀ v ∈ vs, 0 < v.den) :
    (meanF vs).val = (vs.map Flt.val).sum / vs.length := by
  unfold meanF sumF
  rw [val_divNat (foldl_add_den vs ⟨0, 1⟩ (by decide) hd) vs.length
      (List.length_pos.mpr hne),
    foldl_add_val vs ⟨0, 1⟩ (by decide) hd, flt_zero_val, zero_add]

theorem process_2d_snd (s : DodoSystem) (d : DVal) :
    (s.process_2d d).2 = DValDict.ofPairs
      [ ("success".toList, .bool true),
        ("mode".toList, .str "2D".toList),
        ("data".toList, .dict (s.transformation_pairs.foldl
          (fun acc p =>
            if p.is_applicable d s.state then
              dictSet acc p.name (p.applyT d false)
            else acc)
          DValDict.nil)),
        ("harmonics".toList, .dict (s.harmonics.calculate d).2) ] := rfl

theorem calculate_base (h : HarmonicFramework) (d : DVal) :
    dictGet (h.calculate d).2 "base".toList = some (.float
      (if (extract_numeric d).isEmpty then h.base_frequency
       else meanF (extract_numeric d))) := by
  unfold HarmonicFramework.calculate
  by_cases he : (extract_numeric d).isEmpty
  · simp [he, DValDict.ofPairs, dictGet]
  · simp [he, DValDict.ofPairs, dictGet]

/-- C8 (amended): in the `TWO_D` branch the `"base"` harmonic of the result
is the mean of the numeric leaves extracted from the input; when the input
has no numeric leaf it is the framework's current `base_frequency` — which
is the default `1.0` initially but holds the mean from the most recent
calculation that saw values.  For leaves with positive denominators the
mean is the arithmetic mean of their rational values. -/
theorem c8_twod_base_harmonic (s : DodoSystem) (d : DVal)
    (h : s.state = .TWO_D) :
    (∃ s' r, s.process_input d = .ok (s', r) ∧
      dictGet r "harmonics".toList =
        some (.dict (s.harmonics.calculate d).2) ∧
      dictGet (s.harmonics.calculate d).2 "base".toList = some (.float
        (if (extract_numeric d).isEmpty then s.harmonics.base_frequency
         else meanF (extract_numeric d)))) ∧
    HarmonicFramework.init.base_frequency = ⟨1, 1⟩ ∧
    ((extract_numeric d) ≠ [] → (∀ v ∈ extract_numeric d, 0 < v.den) →
      (meanF (extract_numeric d)).val =
        ((extract_numeric d).map Flt.val).sum / (extract_numeric d).length) := by
  refine ⟨⟨_, _, process_input_eq s d, ?_, calculate_base _ _⟩, rfl,
    fun hne hd => meanF_val _ hne hd⟩
  rw [dictGet_set_ne _ _ _ _ (by decide)]
  have hst : (s.addTime d).state = .TWO_D := h
  rw [dispatch_twod _ _ hst, process_2d_snd]
  simp only [DValDict.ofPairs]
  rw [dictGet_cons, if_neg (by decide), dictGet_cons, if_neg (by decide),
    dictGet_cons, if_neg (by decide), dictGet_cons, if_pos (by decide)]
  rfl

/-- C8 (witness): a fresh system in `TWO_D` processing `\x7b"x": 4\x7d`. -/
theorem c8_witness :
    DodoSystem.init.state = .TWO_D ∧
    (∃ s' r,
      DodoSystem.process_input DodoSystem.init
        (.dict (.cons "x".toList (.int 4) .nil)) = .ok (s', r) ∧
      dictGet r "harmonics".toList = some (.dict
        (DodoSystem.init.harmonics.calculate
          (.dict (.cons "x".toList (.int 4) .nil))).2) ∧
      dictGet (DodoSystem.init.harmonics.calculate
          (.dict (.cons "x".toList (.int 4) .nil))).2 "base".toList =
        some (.float
          (if (extract_numeric (.dict (.cons "x".toList (.int 4) .nil))).isEmpty
           then DodoSystem.init.harmonics.base_frequency
           else meanF (extract_numeric
             (.dict (.cons "x".toList (.int 4) .nil)))))) :=
  ⟨rfl, (c8_twod_base_harmonic DodoSystem.init
    (.dict (.cons "x".toList (.int 4) .nil)) rfl).1⟩

/-- C8 (counterexample): after one call whose input averages to `4`, a
second call with an empty input reports base `4`, not the default `1.0` —
the "default" parenthetical of the claim fails on non-fresh systems. -/
theorem c8_base_default_counterexample :
    (match resultDict
        ((stepSystem DodoSystem.init
            (.dict (.cons "x".toList (.int 4) .nil))).process_input
          (.dict .nil)) with
      | some r =>
        match dictGet r "harmonics".toList with
        | some (.dict hkvs) => dictGet hkvs "base".toList
        | _ => Option.none
      | Option.none => Option.none) = some (.float ⟨4, 1⟩) ∧
    Flt.feq ⟨4, 1⟩ HarmonicFramework.init.base_frequency = false ∧
    extract_numeric (.dict .nil) = [] := by
  refine ⟨?_, by decide, by decide⟩
  rfl

/-! ## Claim C3 -/
theorem monologueAppend_le (ts : List Thought) (t : Thought) :
    (monologueAppend ts t).length ≤ max_thoughts := by
  unfold monologueAppend
  by_cases h : max_thoughts < (ts ++ [t]).length
  · rw [if_pos h, List.length_drop]
    omega
  · rw [if_neg h]
    omega

theorem runThoughts_all_external : ∀ (steps : List ThoughtStep)
    (start : List Thought), hasInternal steps = false →
    (runThoughts steps start).length = start.length + steps.length
  | [], start, _ => rfl
  | .internal t :: rest, start, h => by
    simp [hasInternal] at h
  | .external t :: rest, start, h => by
    have hr : hasInternal rest = false := by
      simpa [hasInternal] using h
    have := runThoughts_all_external rest (start ++ [t]) hr
    simp only [runThoughts, List.foldl_cons] at this ⊢
    simp only [applyStep, converseAppend] at this ⊢
    rw [this]
    simp
    omega

theorem trailingExternal_of_no_internal : ∀ (steps : List ThoughtStep),
    hasInternal steps = false → trailingExternal steps = steps.length
  | [], _ => rfl
  | .internal t :: rest, h => by simp [hasInternal] at h
  | .external t :: rest, h => by
    have hr : hasInternal rest = false := by
      simpa [hasInternal] using h
    rw [trailingExternal, if_neg (by simp [hr]), List.length_cons]

theorem runThoughts_bound_of_internal : ∀ (steps : List ThoughtStep),
    hasInternal steps = true → ∀ (start : List Thought),
    (runThoughts steps start).length ≤ max_thoughts + trailingExternal steps
  | [], h, start => by simp [hasInternal] at h
  | .internal t :: rest, _, start => by
    rw [runThoughts, List.foldl_cons]
    by_cases hr : hasInternal rest = true
    · calc (runThoughts rest (applyStep start (.internal t))).length
          ≤ max_thoughts + trailingExternal rest :=
            runThoughts_bound_of_internal rest hr _
      _ = max_thoughts + trailingExternal (.internal t :: rest) := rfl
    · have hr' : hasInternal rest = false := by simpa using hr
      have := runThoughts_all_external rest
        (applyStep start (.internal t)) hr'
      simp only [runThoughts] at this ⊢
      rw [this, trailingExternal, trailingExternal_of_no_internal rest hr']
      have := monologueAppend_le start t
      simp only [applyStep] at *
      omega
  | .external t :: rest, h, start => by
    have hr : hasInternal rest = true := by
      simpa [hasInternal] using h
    rw [runThoughts, List.foldl_cons]
    calc (runThoughts rest (applyStep start (.external t))).length
        ≤ max_thoughts + trailingExternal rest :=
          runThoughts_bound_of_internal rest hr _
    _ = max_thoughts + trailingExternal (.external t :: rest) := by
        rw [trailingExternal, if_pos hr]

set_option maxRecDepth 8000 in
/-- C3 (counterexample): 101 consecutive `converse` appends grow the
thoughts list to length 101, above the configured maximum of 100 —
`converse` appends without trimming, so the claimed cap fails. -/
theorem c3_thought_cap_counterexample :
    (runThoughts (List.replicate 101 (.external someThought)) []).length
        = 101 ∧
    max_thoughts = 100 ∧ ¬ (101 ≤ max_thoughts) := by
  refine ⟨by decide, rfl, by decide⟩

/-- C3 (amended): starting at or below the cap, the thoughts list never
exceeds `max_thoughts` plus the number of converse appends since the last
internal-monologue append; in particular it is back at or below
`max_thoughts` immediately after any internal-monologue append. -/
theorem c3_thought_buffer_bound (steps : List ThoughtStep)
    (start : List Thought) (h : start.length ≤ max_thoughts) :
    (runThoughts steps start).length ≤
        max_thoughts + trailingExternal steps ∧
    ∀ t, (runThoughts (steps ++ [.internal t]) start).length ≤ max_thoughts := by
  constructor
  · by_cases hi : hasInternal steps = true
    · exact runThoughts_bound_of_internal steps hi start
    · have hi' : hasInternal steps = false := by simpa using hi
      rw [runThoughts_all_external steps start hi',
        trailingExternal_of_no_internal steps hi']
      omega
  · intro t
    rw [runThoughts, List.foldl_append]
    exact monologueAppend_le _ t

/-- C3 (witness): one converse append from an empty buffer respects the
amended bound. -/
theorem c3_witness :
    ([] : List Thought).length ≤ max_thoughts ∧
    (runThoughts [.external someThought] []).length ≤
      max_thoughts + trailingExternal [.external someThought] :=
  ⟨by decide, (c3_thought_buffer_bound [.external someThought] []
    (by decide)).1⟩

/-! ## Claim C4 -/
theorem vacMatches_iff : ∀ (vs ss : List (List Char)),
    vacMatches vs ss = true ↔ vs <+: ss
  | [], ss => by simp [vacMatches]
  | v :: vs, [] => by simp [vacMatches]
  | v :: vs, s :: ss => by
    rw [vacMatches, List.cons_prefix_cons]
    simp [vacMatches_iff vs ss]

/-- C4 (counterexample): the V.A.C. list has three symbols, not four, and
`['०', '◌', 'φ', 'Ω']` — of which the V.A.C. list is a subsequence (by the
repository's own `_check_subsequence`) — is rejected, because the check is
positional, not a subsequence test. -/
theorem c4_vac_counterexample :
    vac_sequence.length = 3 ∧
    check_subsequence [['०'], ['◌'], ['φ'], ['Ω']] vac_sequence = true ∧
    (validate_vac_sequence [['०'], ['◌'], ['φ'], ['Ω']]).valid = false := by
  refine ⟨rfl, by decide, by decide⟩

/-- C4 (amended): `validate_vac_sequence` accepts an input exactly when the
fixed three-symbol list `['०', '◌', 'Ω']` is a prefix of it — the three
symbols must occupy the first three positions, with nothing between them
(further symbols may follow). -/
theorem c4_vac_accepts_iff_prefix (sequence : List (List Char)) :
    (validate_vac_sequence sequence).valid = true ↔
      vac_sequence <+: sequence := by
  unfold validate_vac_sequence
  by_cases he : sequence.isEmpty
  · rw [if_pos he]
    have : sequence = [] := by
      cases sequence
      · rfl
      · simp at he
    subst this
    simp [VacResult.valid, vac_sequence]
  · rw [if_neg he]
    simp only [VacResult.valid]
    exact vacMatches_iff vac_sequence sequence

/-! ## Claims C5 and C6 -/
theorem encode_general (sec sub : Int) (attrs : List Int)
    (entry : SectionEntry)
    (hsec : List.lookup (intToChars sec) defaultEncoder.decoder_key
      = some entry)
    (hsub : match entry.subsections with
      | some subs => (List.lookup (intToChars sub) subs).isSome = true
      | Option.none => True)
    (h7 : sec ≠ 7) :
    encode_concept defaultEncoder sec sub attrs =
      .ok (buildEncoding sec sub attrs) := by
  simp only [encode_concept]
  rw [hsec]
  have hsf : (match entry.subsections with
      | some subs => (List.lookup (intToChars sub) subs).isNone
      | Option.none => false) = false := by
    match hs : entry.subsections with
    | some subs =>
      rw [hs] at hsub
      simp [Option.isNone_eq_false_iff, Option.isSome_iff_exists] at hsub ⊢
      exact hsub
    | Option.none => rfl
  simp only [hsf, Bool.false_eq_true, if_false, if_neg h7]

/-- C5: exactly the three section-7 subsections are special-cased —
`encode_concept` then returns the hardcoded constant strings
`"7.1.1.618033988749895"`, `"7.2.1.1.333333"` and `"7.3.432"` while
ignoring the attributes entirely — and for every other valid
`(section, subsection)` the general dot-joined build is returned. -/
theorem c5_constants_special_cased :
    (∀ attributes : List Int,
      encode_concept defaultEncoder 7 1 attributes =
        .ok "7.1.1.618033988749895".toList ∧
      encode_concept defaultEncoder 7 2 attributes =
        .ok "7.2.1.1.333333".toList ∧
      encode_concept defaultEncoder 7 3 attributes =
        .ok "7.3.432".toList) ∧
    (∀ (sec sub : Int) (attributes : List Int) (entry : SectionEntry),
      List.lookup (intToChars sec) defaultEncoder.decoder_key = some entry →
      (match entry.subsections with
       | some subs => (List.lookup (intToChars sub) subs).isSome = true
       | Option.none => True) →
      sec ≠ 7 →
      encode_concept defaultEncoder sec sub attributes =
        .ok (buildEncoding sec sub attributes)) := by
  constructor
  · intro attributes
    exact ⟨rfl, rfl, rfl⟩
  · intro sec sub attributes entry hsec hsub h7
    exact encode_general sec sub attributes entry hsec hsub h7

/-- C5 (witness): subsection `7.2` ignores its attributes, and `(3, 2)`
takes the general path. -/
theorem c5_witness :
    encode_concept defaultEncoder 7 2 [4, 5] = .ok "7.2.1.1.333333".toList ∧
    encode_concept defaultEncoder 3 2 [9] = .ok (buildEncoding 3 2 [9]) :=
  ⟨(c5_constants_special_cased.1 [4, 5]).2.1,
   c5_constants_special_cased.2 3 2 [9]
     ⟨"DODO Visual Pattern Integration".toList, some
       [ ("1".toList, ⟨"Key Elements & Significance".toList⟩),
         ("2".toList, ⟨"Harmonic Framework".toList⟩),
         ("3".toList, ⟨"Transformation Pairs".toList⟩) ]⟩
     (by decide) (by decide) (by decide)⟩

/-- C6: `encode_concept` raises a `ValueError` exactly when the section is
absent from the hardcoded table, or the section's entry has a subsection
table in which the subsection is absent; and the method never mutates the
encoder's state (modelled by the state-passing `encodeStep` returning the
encoder unchanged). -/
theorem c6_encode_validation (sec sub : Int) (attributes : List Int) :
    (isError (encode_concept defaultEncoder sec sub attributes) = true ↔
      (List.lookup (intToChars sec) defaultEncoder.decoder_key = Option.none ∨
       ∃ entry subs,
         List.lookup (intToChars sec) defaultEncoder.decoder_key = some entry ∧
         entry.subsections = some subs ∧
         List.lookup (intToChars sub) subs = Option.none)) ∧
    encodeStep defaultEncoder sec sub attributes =
      (encode_concept defaultEncoder sec sub attributes, defaultEncoder) := by
  refine ⟨?_, rfl⟩
  have hok : ∀ x : Except PyErr (List Char),
      (∃ v, x = .ok v) → isError x = false := by
    rintro x ⟨v, rfl⟩
    rfl
  rcases Option.eq_none_or_eq_some
      (List.lookup (intToChars sec) defaultEncoder.decoder_key) with
    hsec | ⟨entry, hsec⟩
  · refine iff_of_true ?_ (Or.inl hsec)
    simp only [encode_concept, hsec]
    rfl
  · simp only [encode_concept, hsec]
    rcases Option.eq_none_or_eq_some entry.subsections with hss | ⟨subs, hss⟩
    · simp only [hss, Bool.false_eq_true, if_false]
      rw [hok _ (by split_ifs <;> exact ⟨_, rfl⟩)]
      refine iff_of_false (by simp) ?_
      rintro (hl | ⟨entry', subs', hsec', hss', hlook'⟩)
      · cases hl
      · cases hsec'
        rw [hss] at hss'
        cases hss'
    · simp only [hss]
      rcases Option.eq_none_or_eq_some (List.lookup (intToChars sub) subs) with
        hlook | ⟨se, hlook⟩
      · simp only [hlook, Option.isNone_none, if_true, isError]
        refine iff_of_true ?_ (Or.inr ⟨entry, subs, rfl, hss, hlook⟩)
        trivial
      · simp only [hlook, Option.isNone_some, Bool.false_eq_true, if_false]
        rw [hok _ (by split_ifs <;> exact ⟨_, rfl⟩)]
        refine iff_of_false (by simp) ?_
        rintro (hl | ⟨entry', subs', hsec', hss', hlook'⟩)
        · cases hl
        · cases hsec'
          rw [hss] at hss'
          cases hss'
          rw [hlook] at hlook'
          cases hlook'

theorem typeAttr_intOrStr (a : List Char) (h : ∀ c ∈ a, c ≠ '.') :
    intOrStr (typeAttr a) = true := by
  unfold typeAttr
  have hdot : a.any (· = '.') = false := by
    simp only [List.any_eq_false, decide_eq_true_eq]
    exact h
  rw [hdot]
  simp only [Bool.false_eq_true, if_false]
  cases pyInt a <;> rfl

theorem coerceAttr_int (a : List Char) (h : ∀ c ∈ a, c ≠ '.') (v : DVal)
    (hc : coerceAttr a = some v) : intOrStr v = true := by
  unfold coerceAttr at hc
  have hdot : a.any (· = '.') = false := by
    simp only [List.any_eq_false, decide_eq_true_eq]
    exact h
  rw [hdot] at hc
  simp only [Bool.false_eq_true, if_false, Option.map_eq_some'] at hc
  obtain ⟨n, -, rfl⟩ := hc
  rfl

theorem allIntOrStr_map_typeAttr : ∀ (toks : List (List Char)),
    (∀ t ∈ toks, ∀ c ∈ t, c ≠ '.') →
    allIntOrStr (DValList.ofList (toks.map typeAttr)) = true
  | [], _ => rfl
  | t :: ts, h => by
    simp only [List.map_cons, DValList.ofList, allIntOrStr]
    rw [typeAttr_intOrStr t (h t (by simp)),
      allIntOrStr_map_typeAttr ts (fun u hu => h u (by simp [hu]))]
    rfl

theorem allIntOrStr_mapM_coerce : ∀ (toks : List (List Char))
    (attrs : List DVal), (∀ t ∈ toks, ∀ c ∈ t, c ≠ '.') →
    toks.mapM coerceAttr = some attrs →
    allIntOrStr (DValList.ofList attrs) = true
  | [], attrs, _, h => by
    simp only [List.mapM_nil, Option.pure_def, Option.some.injEq] at h
    subst h
    rfl
  | t :: ts, attrs, hdf, h => by
    simp only [List.mapM_cons, Option.pure_def, Option.bind_eq_bind,
      Option.bind_eq_some, Option.some.injEq] at h
    obtain ⟨v, hv, vs, hvs, rfl⟩ := h
    simp only [DValList.ofList, allIntOrStr]
    rw [coerceAttr_int t (hdf t (by simp)) v hv,
      allIntOrStr_mapM_coerce ts vs (fun u hu => hdf u (by simp [hu])) hvs]
    rfl

theorem decodeStandard_attrs (key : List (List Char × SectionEntry))
    (s : List Char) (r : DVal) (xs : DValList)
    (h : decodeStandard key s = .ok r)
    (h2 : pyGet r "attributes".toList = some (.list xs)) :
    allIntOrStr xs = true := by
  have hdf : ∀ t ∈ (splitOnDot s).drop 2, ∀ c ∈ t, c ≠ '.' :=
    fun t ht => splitOnDot_no_dot s t (List.drop_subset 2 _ ht)
  unfold decodeStandard at h
  repeat' split at h
  all_goals try cases h
  all_goals
    first
    | · rename_i attrs hattrs
        obtain rfl : DValList.ofList attrs = xs := by
          cases (show some (DVal.mkList attrs) = some (.list xs) from h2)
          rfl
        exact allIntOrStr_mapM_coerce _ attrs hdf hattrs
    | · obtain rfl :
          DValList.ofList (((splitOnDot s).drop 2).map typeAttr) = xs := by
          cases (show some (DVal.mkList (((splitOnDot s).drop 2).map typeAttr))
            = some (.list xs) from h2)
          rfl
        exact allIntOrStr_map_typeAttr _ hdf

theorem matchFibonacci_attrs (s : List Char) (r : DVal)
    (h : matchFibonacci s = .ok (some r)) :
    pyGet r "attributes".toList = Option.none := by
  unfold matchFibonacci at h
  by_cases h4 : (splitOnDot s).length < 4
  · rw [if_pos h4] at h
    exact Option.noConfusion (Except.ok.inj h)
  · rw [if_neg h4] at h
    split at h
    · exact Except.noConfusion h
    · split at h
      · have := Option.some.inj (Except.ok.inj h)
        subst this
        rfl
      · exact Option.noConfusion (Except.ok.inj h)

theorem matchGoldenRatio_attrs (s : List Char) (r : DVal)
    (h : matchGoldenRatio s = some r) :
    pyGet r "attributes".toList = Option.none := by
  unfold matchGoldenRatio at h
  by_cases h3 : (splitOnDot s).length < 3
  · rw [if_pos h3] at h
    exact Option.noConfusion h
  · rw [if_neg h3] at h
    split at h
    · exact Option.noConfusion h
    · split at h
      · have := Option.some.inj h
        subst this
        rfl
      · exact Option.noConfusion h

theorem matchTimeHarmonic_attrs (s : List Char) (r : DVal)
    (h : matchTimeHarmonic s = some r) :
    pyGet r "attributes".toList = Option.none := by
  unfold matchTimeHarmonic at h
  by_cases h4 : (splitOnDot s).length < 4
  · rw [if_pos h4] at h
    exact Option.noConfusion h
  · rw [if_neg h4] at h
    split at h
    · exact Option.noConfusion h
    · split at h
      · have := Option.some.inj h
        subst this
        rfl
      · exact Option.noConfusion h

theorem matchBaseFrequency_attrs (s : List Char) (r : DVal)
    (h : matchBaseFrequency s = some r) :
    pyGet r "attributes".toList = Option.none := by
  unfold matchBaseFrequency at h
  by_cases h3 : (splitOnDot s).length < 3
  · rw [if_pos h3] at h
    exact Option.noConfusion h
  · rw [if_neg h3] at h
    split at h
    · exact Option.noConfusion h
    · split at h
      · have := Option.some.inj h
        subst this
        rfl
      · exact Option.noConfusion h

/-- C10: on every successfully decoded sequence, every element of the
returned `"attributes"` list is an int or a raw token string — never a
float: splitting on `'.'` leaves no dot inside any token, so the
float-coercion branch of the standard path is unreachable. -/
theorem c10_attributes_never_float (key : List (List Char × SectionEntry))
    (s : List Char) (r : DVal) (xs : DValList)
    (h : decode_sequence key s = .ok r)
    (h2 : pyGet r "attributes".toList = some (.list xs)) :
    allIntOrStr xs = true := by
  unfold decode_sequence at h
  split at h
  · cases h
  · rename_i r1 heq
    cases h
    have hnone : pyGet r "attributes".toList = Option.none := by
      by_cases hf : matchFibRe s
      · rw [if_pos hf] at heq
        exact matchFibonacci_attrs s r heq
      · rw [if_neg hf] at heq
        cases heq
    rw [hnone] at h2
    cases h2
  · split at h
    · rename_i r1 heq
      cases h
      have hnone : pyGet r "attributes".toList = Option.none := by
        by_cases hf : matchGoldenRe s
        · rw [if_pos hf] at heq
          exact matchGoldenRatio_attrs s r heq
        · rw [if_neg hf] at heq
          cases heq
      rw [hnone] at h2
      cases h2
    · split at h
      · rename_i r1 heq
        cases h
        have hnone : pyGet r "attributes".toList = Option.none := by
          by_cases hf : matchTimeHRe s
          · rw [if_pos hf] at heq
            exact matchTimeHarmonic_attrs s r heq
          · rw [if_neg hf] at heq
            cases heq
        rw [hnone] at h2
        cases h2
      · split at h
        · rename_i r1 heq
          cases h
          have hnone : pyGet r "attributes".toList = Option.none := by
            by_cases hf : matchBaseFRe s
            · rw [if_pos hf] at heq
              exact matchBaseFrequency_attrs s r heq
            · rw [if_neg hf] at heq
              cases heq
          rw [hnone] at h2
          cases h2
        · exact decodeStandard_attrs key s r xs h h2

/-- C10 (witness): decoding `"3.2.9x"` returns the raw token `"9x"` as the
single attribute, every attribute being an int or a string. -/
theorem c10_witness :
    decode_sequence defaultDecoderKey "3.2.9x".toList = .ok (DVal.mkDict
      [ ("section".toList, .int 3),
        ("section_name".toList, .str "DODO Visual Pattern Integration".toList),
        ("subsection".toList, .int 2),
        ("subsection_name".toList, .str "Harmonic Framework".toList),
        ("attributes".toList, DVal.mkList [.str "9x".toList]),
        ("raw".toList, .str "3.2.9x".toList) ]) ∧
    allIntOrStr (DValList.ofList [.str "9x".toList]) = true := by
  refine ⟨by decide, ?_⟩
  exact c10_attributes_never_float defaultDecoderKey "3.2.9x".toList
    (DVal.mkDict
      [ ("section".toList, .int 3),
        ("section_name".toList, .str "DODO Visual Pattern Integration".toList),
        ("subsection".toList, .int 2),
        ("subsection_name".toList, .str "Harmonic Framework".toList),
        ("attributes".toList, DVal.mkList [.str "9x".toList]),
        ("raw".toList, .str "3.2.9x".toList) ])
    (DValList.ofList [.str "9x".toList]) (by decide) (by decide)

/-! ## Claim C1: the encode/decode round trip

Infrastructure: the encoded string splits back into its tokens, integer
tokens parse back, and the regex-guarded pattern matchers do not intercept
encodings outside section 7 and the Fibonacci-capturable `8.1` shapes. -/
theorem foldl_buildEncoding (attrs : List Int) : ∀ pre : List Char,
    attrs.foldl (fun enc a => enc ++ '.' :: intToChars a) pre =
      pre ++ (attrs.map intToChars).flatMap (fun u => '.' :: u) := by
  induction attrs with
  | nil => intro pre; simp
  | cons a as ih =>
    intro pre
    rw [List.foldl_cons, ih (pre ++ '.' :: intToChars a)]
    simp

theorem buildEncoding_eq_joinDots (sec sub : Int) (attrs : List Int) :
    buildEncoding sec sub attrs =
      joinDots (intToChars sec :: intToChars sub :: attrs.map intToChars) := by
  unfold buildEncoding
  rw [foldl_buildEncoding, joinDots, joinDots_cons]
  simp

theorem splitOnDot_buildEncoding (sec sub : Int) (attrs : List Int) :
    splitOnDot (buildEncoding sec sub attrs) =
      intToChars sec :: intToChars sub :: attrs.map intToChars := by
  rw [buildEncoding_eq_joinDots]
  refine splitOnDot_joinDots _ (by simp) ?_
  intro t ht
  rcases List.mem_cons.mp ht with rfl | ht
  · exact intToChars_no_dot sec
  · rcases List.mem_cons.mp ht with rfl | ht
    · exact intToChars_no_dot sub
    · obtain ⟨a, -, rfl⟩ := List.mem_map.mp ht
      exact intToChars_no_dot a

theorem buildEncoding_cons (sec sub : Int) (attrs : List Int) :
    buildEncoding sec sub attrs =
      intToChars sec ++ '.' :: (intToChars sub ++
        (attrs.map intToChars).flatMap (fun u => '.' :: u)) := by
  rw [buildEncoding_eq_joinDots, joinDots, joinDots_cons]

theorem mapM_pyInt_renders : ∀ attrs : List Int,
    (attrs.map intToChars).mapM pyInt = some attrs
  | [] => rfl
  | a :: as => by
    simp only [List.map_cons, List.mapM_cons, pyInt_intToChars,
      mapM_pyInt_renders as, Option.pure_def, Option.bind_eq_bind,
      Option.some_bind]

theorem typeAttr_render (a : Int) : typeAttr (intToChars a) = .int a := by
  unfold typeAttr
  have hdot : (intToChars a).any (· = '.') = false := by
    simp only [List.any_eq_false, decide_eq_true_eq]
    exact intToChars_no_dot a
  rw [hdot]
  simp [pyInt_intToChars]

theorem map_typeAttr_renders (attrs : List Int) :
    (attrs.map intToChars).map typeAttr = attrs.map DVal.int := by
  rw [List.map_map]
  exact List.map_congr_left (fun a _ => typeAttr_render a)

theorem stripPre_prefix : ∀ (p s : List Char), stripPre p (p ++ s) = some s
  | [], s => rfl
  | c :: p, s => by
    simp only [List.cons_append, stripPre, if_pos rfl]
    exact stripPre_prefix p s

theorem stripPre_cons_ne (p : Char) (ps : List Char) (c : Char)
    (cs : List Char) (h : c ≠ p) :
    stripPre (p :: ps) (c :: cs) = Option.none := by
  simp [stripPre, h]

theorem matchers7_false (c : Char) (hc : c ≠ '7') (rest : List Char) :
    matchGoldenRe (c :: rest) = false ∧ matchTimeHRe (c :: rest) = false ∧
      matchBaseFRe (c :: rest) = false := by
  refine ⟨?_, ?_, ?_⟩
  · unfold matchGoldenRe
    rw [show "7.1.".toList = '7' :: ".1.".toList from rfl,
      stripPre_cons_ne _ _ _ _ hc]
  · unfold matchTimeHRe
    rw [show "7.2.1.".toList = '7' :: ".2.1.".toList from rfl,
      stripPre_cons_ne _ _ _ _ hc]
  · unfold matchBaseFRe
    rw [show "7.3.".toList = '7' :: ".3.".toList from rfl,
      stripPre_cons_ne _ _ _ _ hc]

theorem matchFib_head_ne (c : Char) (hc : c ≠ '8') (rest : List Char) :
    matchFibRe (c :: rest) = false := by
  unfold matchFibRe
  rw [show "8.1.".toList = '8' :: ".1.".toList from rfl,
    stripPre_cons_ne _ _ _ _ hc]

theorem matchFib_sub_ne (c : Char) (hc : c ≠ '1') (rest : List Char) :
    matchFibRe ('8' :: '.' :: c :: rest) = false := by
  unfold matchFibRe
  rw [show "8.1.".toList = '8' :: '.' :: '1' :: '.' :: [] from rfl]
  simp [stripPre, hc]

theorem takeWhile_digits_append (rest : List Char)
    (hr : headDigit rest = false) : ∀ t : List Char,
    (∀ c ∈ t, isDigitChar c = true) →
    (t ++ rest).takeWhile isDigitChar = t ∧
      (t ++ rest).dropWhile isDigitChar = rest
  | [] , _ => by
    constructor
    · match rest, hr with
      | [], _ => rfl
      | c :: cs, hr => simp [List.takeWhile_cons, headDigit] at hr ⊢; simp [hr]
    · match rest, hr with
      | [], _ => rfl
      | c :: cs, hr => simp [List.dropWhile_cons, headDigit] at hr ⊢; simp [hr]
  | c :: t, h => by
    have hc : isDigitChar c = true := h c (by simp)
    have ih := takeWhile_digits_append rest hr t (fun u hu => h u (by simp [hu]))
    constructor
    · simp [List.takeWhile_cons, hc, ih.1]
    · simp [List.dropWhile_cons, hc, ih.2]

theorem digits1_all_digits (t rest : List Char) (ht : t ≠ [])
    (hd : ∀ c ∈ t, isDigitChar c = true) (hr : headDigit rest = false) :
    digits1 (t ++ rest) = some rest := by
  unfold digits1
  obtain ⟨h1, h2⟩ := takeWhile_digits_append rest hr t hd
  rw [h1, h2, if_neg (by simpa using ht)]

theorem digits1_head_not_digit (s : List Char) (h : headDigit s = false) :
    digits1 s = Option.none := by
  unfold digits1
  match s, h with
  | [], _ => rfl
  | c :: cs, h =>
    simp only [headDigit] at h
    simp [List.takeWhile_cons, h]

theorem headDigit_append (t rest : List Char) (ht : t ≠ []) :
    headDigit (t ++ rest) = headDigit t := by
  match t, ht with
  | c :: cs, _ => rfl

theorem intToChars_neg (a : Int) (h : a < 0) :
    intToChars a = '-' :: natToChars a.natAbs := by
  unfold intToChars
  rw [if_pos h]

theorem intToChars_nonneg (a : Int) (h : 0 ≤ a) :
    intToChars a = natToChars a.toNat := by
  unfold intToChars
  rw [if_neg (by omega)]

theorem render_all_digits (a : Int) (h : 0 ≤ a) :
    ∀ c ∈ intToChars a, isDigitChar c = true := by
  rw [intToChars_nonneg a h]
  exact natToChars_all_digit a.toNat

theorem headDigit_render_neg (a : Int) (h : a < 0) :
    headDigit (intToChars a) = false := by
  rw [intToChars_neg a h]
  rfl

theorem headDigit_render_nonneg (a : Int) (h : 0 ≤ a) :
    headDigit (intToChars a) = true := by
  rw [intToChars_nonneg a h]
  match hc : natToChars a.toNat, natToChars_ne_nil a.toNat with
  | c :: cs, _ =>
    have := natToChars_all_digit a.toNat c (by rw [hc]; simp)
    simpa [headDigit] using this

theorem decode_seq_eq_standard (key : List (List Char × SectionEntry))
    (s : List Char)
    (h1 : matchFibRe s = false ∨
      (matchFibRe s = true ∧ matchFibonacci s = .ok Option.none))
    (h2 : matchGoldenRe s = false) (h3 : matchTimeHRe s = false)
    (h4 : matchBaseFRe s = false) :
    decode_sequence key s = decodeStandard key s := by
  unfold decode_sequence
  rcases h1 with h1 | ⟨h1, h1b⟩
  · rw [if_neg (by simp [h1]), if_neg (by simp [h2]), if_neg (by simp [h3]),
      if_neg (by simp [h4])]
  · rw [if_pos h1, h1b, if_neg (by simp [h2]), if_neg (by simp [h3]),
      if_neg (by simp [h4])]

theorem lookup_mem {β : Type} : ∀ (l : List (List Char × β)) (k : List Char)
    (v : β), List.lookup k l = some v → k ∈ l.map Prod.fst
  | [], k, v, h => by exact Option.noConfusion h
  | (k0, v0) :: t, k, v, h => by
    by_cases hk : k = k0
    · subst hk
      rw [List.map_cons]
      exact List.mem_cons_self _ _
    · have hbeq : (k == k0) = false := by
        rw [beq_eq_false_iff_ne]
        exact hk
      rw [List.lookup, hbeq] at h
      rw [List.map_cons]
      exact List.mem_cons_of_mem _ (lookup_mem t k v h)

theorem sec_cases (sec : Int) (entry : SectionEntry)
    (h : List.lookup (intToChars sec) defaultDecoderKey = some entry) :
    sec = 1 ∨ sec = 2 ∨ sec = 3 ∨ sec = 4 ∨ sec = 5 ∨ sec = 6 ∨ sec = 7 ∨
      sec = 8 ∨ sec = 9 := by
  have hmem := lookup_mem _ _ _ h
  have hkeys : defaultDecoderKey.map Prod.fst =
      ["1".toList, "2".toList, "3".toList, "4".toList, "5".toList,
       "6".toList, "7".toList, "8".toList, "9".toList] := rfl
  rw [hkeys] at hmem
  simp only [List.mem_cons, List.not_mem_nil, or_false] at hmem
  rcases hmem with h1 | h1 | h1 | h1 | h1 | h1 | h1 | h1 | h1
  · exact Or.inl (intToChars_injective (h1.trans (by decide)))
  · exact Or.inr (Or.inl (intToChars_injective (h1.trans (by decide))))
  · exact Or.inr (Or.inr (Or.inl (intToChars_injective (h1.trans (by decide)))))
  · exact Or.inr (Or.inr (Or.inr (Or.inl
      (intToChars_injective (h1.trans (by decide))))))
  · exact Or.inr (Or.inr (Or.inr (Or.inr (Or.inl
      (intToChars_injective (h1.trans (by decide)))))))
  · exact Or.inr (Or.inr (Or.inr (Or.inr (Or.inr (Or.inl
      (intToChars_injective (h1.trans (by decide))))))))
  · exact Or.inr (Or.inr (Or.inr (Or.inr (Or.inr (Or.inr (Or.inl
      (intToChars_injective (h1.trans (by decide)))))))))
  · exact Or.inr (Or.inr (Or.inr (Or.inr (Or.inr (Or.inr (Or.inr (Or.inl
      (intToChars_injective (h1.trans (by decide))))))))))
  · exact Or.inr (Or.inr (Or.inr (Or.inr (Or.inr (Or.inr (Or.inr (Or.inr
      (intToChars_injective (h1.trans (by decide))))))))))

theorem sub_tok_cases (sub : Int) (subs : List (List Char × SubEntry))
    (hk : subs.map Prod.fst = ["1".toList, "2".toList, "3".toList])
    (h : (List.lookup (intToChars sub) subs).isSome = true) :
    intToChars sub = "1".toList ∨ intToChars sub = "2".toList ∨
      intToChars sub = "3".toList := by
  obtain ⟨se, hse⟩ := Option.isSome_iff_exists.mp h
  have hmem := lookup_mem _ _ _ hse
  rw [hk] at hmem
  simpa using hmem

theorem decodeStandard_roundtrip (sec sub : Int) (attrs : List Int)
    (entry : SectionEntry)
    (hsec : List.lookup (intToChars sec) defaultDecoderKey = some entry) :
    ∃ r, decodeStandard defaultDecoderKey (buildEncoding sec sub attrs)
        = .ok r ∧
      pyGet r "section".toList = some (.int sec) ∧
      pyGet r "subsection".toList = some (.int sub) ∧
      pyGet r "attributes".toList = some (DVal.mkList (attrs.map DVal.int)) := by
  unfold decodeStandard
  rw [splitOnDot_buildEncoding]
  simp only [List.length_cons, List.getD_cons_zero, List.getD_cons_succ,
    List.drop_succ_cons, List.drop_zero]
  rw [if_neg (by omega)]
  simp only [hsec, pyInt_intToChars, map_typeAttr_renders]
  exact ⟨_, rfl, rfl, rfl, rfl⟩

theorem matchFib_81_signs (a b : Int) (rest : List Int)
    (h : matchFibRe (buildEncoding 8 1 (a :: b :: rest)) = true) :
    0 ≤ a ∧ 0 ≤ b := by
  rw [buildEncoding_cons,
    show intToChars 8 = ['8'] from by decide,
    show intToChars 1 = ['1'] from by decide] at h
  simp only [List.map_cons, List.flatMap_cons, List.cons_append,
    List.nil_append] at h
  unfold matchFibRe at h
  rw [show "8.1.".toList = ['8', '.', '1', '.'] from rfl] at h
  have h1 : (match digits1 (intToChars a ++ '.' :: (intToChars b ++
      (rest.map intToChars).flatMap (fun u => '.' :: u))) with
    | some ('.' :: r2) => headDigit r2
    | _ => false) = true := by
    rw [show stripPre ['8', '.', '1', '.']
        ('8' :: '.' :: '1' :: '.' ::
          (intToChars a ++ '.' :: (intToChars b ++
            (rest.map intToChars).flatMap (fun u => '.' :: u)))) =
        some (intToChars a ++ '.' :: (intToChars b ++
          (rest.map intToChars).flatMap (fun u => '.' :: u)))
      from stripPre_prefix _ _] at h
    exact h
  by_cases ha : a < 0
  · exfalso
    have hhd : headDigit (intToChars a ++ '.' :: (intToChars b ++
        (rest.map intToChars).flatMap (fun u => '.' :: u))) = false := by
      rw [headDigit_append _ _ (intToChars_ne_nil a)]
      exact headDigit_render_neg a ha
    rw [digits1_head_not_digit _ hhd] at h1
    exact Bool.noConfusion (show false = true from h1)
  · have ha' : 0 ≤ a := by omega
    rw [digits1_all_digits (intToChars a)
      ('.' :: (intToChars b ++
        (rest.map intToChars).flatMap (fun u => '.' :: u)))
      (intToChars_ne_nil a) (render_all_digits a ha') rfl] at h1
    have h2 : headDigit (intToChars b ++
        (rest.map intToChars).flatMap (fun u => '.' :: u)) = true := h1
    rw [headDigit_append _ _ (intToChars_ne_nil b)] at h2
    by_cases hb : b < 0
    · exfalso
      rw [headDigit_render_neg b hb] at h2
      exact Bool.noConfusion h2
    · exact ⟨ha', by omega⟩

theorem matchFibonacci_81_none (attrs : List Int)
    (h : attrs.length < 2 ∨ fibConsistent attrs = false) :
    matchFibonacci (buildEncoding 8 1 attrs) = .ok Option.none := by
  unfold matchFibonacci
  rw [splitOnDot_buildEncoding]
  simp only [List.length_cons, List.drop_succ_cons, List.drop_zero,
    List.length_map]
  rcases h with h | h
  · rw [if_pos (by omega)]
  · by_cases h2 : attrs.length + 1 + 1 < 4
    · rw [if_pos h2]
    · rw [if_neg h2, mapM_pyInt_renders]
      simp [h]

theorem nonfib_matchers (sec sub : Int) (attrs : List Int) (c : Char)
    (hc : intToChars sec = [c]) (h7 : c ≠ '7') (h8 : c ≠ '8') :
    matchFibRe (buildEncoding sec sub attrs) = false ∧
    matchGoldenRe (buildEncoding sec sub attrs) = false ∧
    matchTimeHRe (buildEncoding sec sub attrs) = false ∧
    matchBaseFRe (buildEncoding sec sub attrs) = false := by
  rw [buildEncoding_cons, hc]
  simp only [List.cons_append, List.nil_append]
  exact ⟨matchFib_head_ne c h8 _, (matchers7_false c h7 _).1,
    (matchers7_false c h7 _).2.1, (matchers7_false c h7 _).2.2⟩

theorem matchers7_false_build8 (sub : Int) (attrs : List Int) :
    matchGoldenRe (buildEncoding 8 sub attrs) = false ∧
    matchTimeHRe (buildEncoding 8 sub attrs) = false ∧
    matchBaseFRe (buildEncoding 8 sub attrs) = false := by
  rw [buildEncoding_cons, show intToChars 8 = ['8'] from by decide]
  simp only [List.cons_append, List.nil_append]
  exact matchers7_false '8' (by decide) _

theorem matchFib_false_build8 (sub : Int) (attrs : List Int) (c : Char)
    (hc : intToChars sub = [c]) (h1 : c ≠ '1') :
    matchFibRe (buildEncoding 8 sub attrs) = false := by
  rw [buildEncoding_cons, show intToChars 8 = ['8'] from by decide, hc]
  simp only [List.cons_append, List.nil_append]
  exact matchFib_sub_ne c h1 _

theorem lookup_mem_val {β : Type} : ∀ (l : List (List Char × β))
    (k : List Char) (v : β), List.lookup k l = some v → v ∈ l.map Prod.snd
  | [], _, _, h => by exact Option.noConfusion h
  | (k0, v0) :: t, k, v, h => by
    by_cases hk : k = k0
    · subst hk
      rw [List.lookup] at h
      have h2 : some v0 = some v := by
        rw [show (k == k) = true from by simp] at h
        exact h
      have hv : v0 = v := Option.some.inj h2
      subst hv
      rw [List.map_cons]
      exact List.mem_cons_self _ _
    · have hbeq : (k == k0) = false := by
        rw [beq_eq_false_iff_ne]
        exact hk
      rw [List.lookup, hbeq] at h
      rw [List.map_cons]
      exact List.mem_cons_of_mem _ (lookup_mem_val t k v h)

theorem default_subs_keys (k : List Char) (entry : SectionEntry)
    (subs : List (List Char × SubEntry))
    (h : List.lookup k defaultDecoderKey = some entry)
    (hs : entry.subsections = some subs) :
    subs.map Prod.fst = ["1".toList, "2".toList, "3".toList] := by
  have hmem := lookup_mem_val _ _ _ h
  have hall : ∀ e ∈ defaultDecoderKey.map Prod.snd,
      e.subsections.map (List.map Prod.fst) =
        some ["1".toList, "2".toList, "3".toList] := by decide
  have h2 := hall entry hmem
  rw [hs] at h2
  simpa using h2

/-- C1 (amended): for every section/subsection pair present in the default
decoder key and every list of integer attributes, provided the section is
not 7 (whose encodings are the hardcoded constant strings) and the
encoding is not captured by the Fibonacci matcher (section 8, subsection 1
with a Fibonacci-consistent nonnegative-headed attribute list), decoding
the encoded string recovers the section, the subsection and the attribute
values unchanged. -/
theorem c1_roundtrip (sec sub : Int) (attrs : List Int)
    (entry : SectionEntry) (subs : List (List Char × SubEntry))
    (hsec : List.lookup (intToChars sec) defaultDecoderKey = some entry)
    (hsubs : entry.subsections = some subs)
    (hsub : (List.lookup (intToChars sub) subs).isSome = true)
    (h7 : sec ≠ 7)
    (hfib : ¬(sec = 8 ∧ sub = 1 ∧ fibCaptured attrs = true)) :
    ∃ s r, encode_concept defaultEncoder sec sub attrs = .ok s ∧
      decode_sequence defaultDecoderKey s = .ok r ∧
      pyGet r "section".toList = some (.int sec) ∧
      pyGet r "subsection".toList = some (.int sub) ∧
      pyGet r "attributes".toList =
        some (DVal.mkList (attrs.map DVal.int)) := by
  have henc : encode_concept defaultEncoder sec sub attrs =
      .ok (buildEncoding sec sub attrs) := by
    refine encode_general sec sub attrs entry hsec ?_ h7
    rw [hsubs]
    exact hsub
  have hkeys : subs.map Prod.fst = ["1".toList, "2".toList, "3".toList] :=
    default_subs_keys _ entry subs hsec hsubs
  have hdec : decode_sequence defaultDecoderKey (buildEncoding sec sub attrs)
      = decodeStandard defaultDecoderKey (buildEncoding sec sub attrs) := by
    rcases sec_cases sec entry hsec with
      rfl | rfl | rfl | rfl | rfl | rfl | rfl | rfl | rfl
    · obtain ⟨hf, hg, ht, hb⟩ :=
        nonfib_matchers 1 sub attrs '1' (by decide) (by decide) (by decide)
      exact decode_seq_eq_standard _ _ (Or.inl hf) hg ht hb
    · obtain ⟨hf, hg, ht, hb⟩ :=
        nonfib_matchers 2 sub attrs '2' (by decide) (by decide) (by decide)
      exact decode_seq_eq_standard _ _ (Or.inl hf) hg ht hb
    · obtain ⟨hf, hg, ht, hb⟩ :=
        nonfib_matchers 3 sub attrs '3' (by decide) (by decide) (by decide)
      exact decode_seq_eq_standard _ _ (Or.inl hf) hg ht hb
    · obtain ⟨hf, hg, ht, hb⟩ :=
        nonfib_matchers 4 sub attrs '4' (by decide) (by decide) (by decide)
      exact decode_seq_eq_standard _ _ (Or.inl hf) hg ht hb
    · obtain ⟨hf, hg, ht, hb⟩ :=
        nonfib_matchers 5 sub attrs '5' (by decide) (by decide) (by decide)
      exact decode_seq_eq_standard _ _ (Or.inl hf) hg ht hb
    · obtain ⟨hf, hg, ht, hb⟩ :=
        nonfib_matchers 6 sub attrs '6' (by decide) (by decide) (by decide)
      exact decode_seq_eq_standard _ _ (Or.inl hf) hg ht hb
    · exact absurd rfl h7
    · obtain ⟨hg, ht, hb⟩ := matchers7_false_build8 sub attrs
      rcases sub_tok_cases sub subs hkeys hsub with h1 | h1 | h1
      · have hs1 : sub = 1 := intToChars_injective (h1.trans (by decide))
        subst hs1
        have hfc : fibCaptured attrs = false := by
          by_cases hx : fibCaptured attrs = true
          · exact absurd ⟨rfl, rfl, hx⟩ hfib
          · simpa using hx
        by_cases hf : matchFibRe (buildEncoding 8 1 attrs) = true
        · have hnone : matchFibonacci (buildEncoding 8 1 attrs)
              = .ok Option.none := by
            match attrs, hfc, hf with
            | [], _, _ =>
              exact matchFibonacci_81_none [] (Or.inl (by decide))
            | [a], _, _ =>
              exact matchFibonacci_81_none [a] (Or.inl (by simp))
            | a :: b :: rest, hfc, hf =>
              obtain ⟨hA, hB⟩ := matchFib_81_signs a b rest hf
              refine matchFibonacci_81_none _ (Or.inr ?_)
              unfold fibCaptured at hfc
              rw [show (decide (2 ≤ (a :: b :: rest).length)) = true from by
                    simp only [List.length_cons, decide_eq_true_eq]
                    omega,
                  show (decide (0 ≤ (a :: b :: rest).getD 0 0)) = true from by
                    simpa using hA,
                  show (decide (0 ≤ (a :: b :: rest).getD 1 0)) = true from by
                    simpa using hB] at hfc
              simpa using hfc
          exact decode_seq_eq_standard _ _ (Or.inr ⟨hf, hnone⟩) hg ht hb
        · exact decode_seq_eq_standard _ _ (Or.inl (by simpa using hf))
            hg ht hb
      · exact decode_seq_eq_standard _ _
          (Or.inl (matchFib_false_build8 sub attrs '2'
            (h1.trans (by decide)) (by decide))) hg ht hb
      · exact decode_seq_eq_standard _ _
          (Or.inl (matchFib_false_build8 sub attrs '3'
            (h1.trans (by decide)) (by decide))) hg ht hb
    · obtain ⟨hf, hg, ht, hb⟩ :=
        nonfib_matchers 9 sub attrs '9' (by decide) (by decide) (by decide)
      exact decode_seq_eq_standard _ _ (Or.inl hf) hg ht hb
  obtain ⟨r, hstd, ha, hb2, hc2⟩ :=
    decodeStandard_roundtrip sec sub attrs entry hsec
  exact ⟨buildEncoding sec sub attrs, r, henc, hdec.trans hstd, ha, hb2, hc2⟩

/-- C1 (counterexample): section 7, subsection 1 is present in the decoder
key, yet encoding `(7, 1, [5])` yields the hardcoded constant string,
which decodes to attributes `[1, 618033988749895]` — not `[5]`; and for
section 8, subsection 1 the Fibonacci-consistent attribute list `[1, 1, 2]`
is captured by the Fibonacci matcher, whose result dictionary has no
`"section"` key at all. -/
theorem c1_roundtrip_counterexample :
    (List.lookup (intToChars 7) defaultDecoderKey).isSome = true ∧
    encode_concept defaultEncoder 7 1 [5] =
      .ok "7.1.1.618033988749895".toList ∧
    (decode_sequence defaultDecoderKey
        "7.1.1.618033988749895".toList).map
        (fun r => pyGet r "attributes".toList) =
      .ok (some (DVal.mkList [DVal.int 1, DVal.int 618033988749895])) ∧
    DVal.mkList [DVal.int 1, DVal.int 618033988749895] ≠
      DVal.mkList [DVal.int 5] ∧
    encode_concept defaultEncoder 8 1 [1, 1, 2] =
      .ok "8.1.1.1.2".toList ∧
    (decode_sequence defaultDecoderKey "8.1.1.1.2".toList).map
        (fun r => pyGet r "section".toList) = .ok Option.none := by
  decide

/-- C1 (witness): the round trip at `(3, 2, [2, 1, 5, 3, 2])`. -/
theorem c1_witness :
    ∃ s r, encode_concept defaultEncoder 3 2 [2, 1, 5, 3, 2] = .ok s ∧
      decode_sequence defaultDecoderKey s = .ok r ∧
      pyGet r "section".toList = some (.int 3) ∧
      pyGet r "subsection".toList = some (.int 2) ∧
      pyGet r "attributes".toList =
        some (DVal.mkList ([2, 1, 5, 3, 2].map DVal.int)) :=
  c1_roundtrip 3 2 [2, 1, 5, 3, 2]
    ⟨"DODO Visual Pattern Integration".toList, some
      [ ("1".toList, ⟨"Key Elements & Significance".toList⟩),
        ("2".toList, ⟨"Harmonic Framework".toList⟩),
        ("3".toList, ⟨"Transformation Pairs".toList⟩) ]⟩
    [ ("1".toList, ⟨"Key Elements & Significance".toList⟩),
      ("2".toList, ⟨"Harmonic Framework".toList⟩),
      ("3".toList, ⟨"Transformation Pairs".toList⟩) ]
    (by decide) rfl (by decide) (by decide) (by decide)

end Bazinga

